import Mathlib

/-!
Shallow embedding of the `matcher` order-matching crate.

Data model and operations are translated from `src/src/order.rs`,
`src/src/lib.rs`, `src/src/log.rs` and `src/src/queues/*.rs`:
orders are records of `Nat` fields (`u64` values; no arithmetic here can
overflow, every subtraction is guarded by a `min`), the per-side queues of
`VecDequeQueue` are `List Order` with index 0 as the queue front, and the
per-call logger is the list of emitted `LogItem`s.
-/

/-- Side of an order, from `OrderSide` in `order.rs`. -/
inductive OrderSide where
  | Buy
  | Sell
deriving DecidableEq, Repr

/-- Kind of an incoming order, from `OrderKind` in `order.rs`. -/
inductive OrderKind where
  | Limit
  | FillOrKill
  | ImmediateOrCancel
deriving DecidableEq, Repr

/-- Resting order record, from `Order<D>` in `order.rs` (the phantom
direction parameter is carried by which queue holds the order). -/
@[ext]
structure Order where
  price_limit : Nat
  size : Nat
  user_id : Nat
deriving DecidableEq, Repr

/-- Incoming order record, from `IncomingOrder` in `order.rs`. -/
structure IncomingOrder where
  price_limit : Nat
  size : Nat
  user_id : Nat
  kind : OrderKind
  side : OrderSide
deriving DecidableEq, Repr

/-- Log item, from `LogItem` in `log.rs`. -/
inductive LogItem where
  | Enqueued (size : Nat)
  | Fulfilled (size : Nat) (price : Nat) (user_id : Nat)
  | Cancelled (size : Nat)
deriving DecidableEq, Repr

/-- Tests whether a log item is a `Fulfilled` entry. -/
def LogItem.isFulfilled : LogItem → Bool
  | .Fulfilled _ _ _ => true
  | _ => false

/-- Tests whether a log item is a `Cancelled` entry. -/
def LogItem.isCancelled : LogItem → Bool
  | .Cancelled _ => true
  | _ => false

/-- Order book: the two `VecDequeQueue`s of `OrderBook` in `lib.rs`,
each a list with index 0 the best-price front. -/
structure OrderBook where
  bid : List Order
  ask : List Order
deriving DecidableEq, Repr

/-- Empty book, from `OrderBook::new`. -/
def OrderBook.new : OrderBook := ⟨[], []⟩

/-- Price compatibility check, from `Order::<D>::price_matches` in
`order.rs`; `side` is the side `D` of the passive order's queue. -/
def price_matches (side : OrderSide) (passive active : Order) : Bool :=
  match side with
  | OrderSide.Buy => active.price_limit ≤ passive.price_limit
  | OrderSide.Sell => active.price_limit ≥ passive.price_limit

/-- Result of the `iterate` walk inside `match_order` in `lib.rs`:
the final active order, the `drop_first` counter, the `retained`
clones of skipped same-user orders, the `Fulfilled` items sent to the
logger, and the queue contents after the walk's in-place size
mutations (structurally unchanged: the walk itself removes nothing). -/
structure WalkResult where
  active : Order
  dropFirst : Nat
  retained : List Order
  log : List LogItem
  queue : List Order
deriving DecidableEq, Repr

/-- The `self.iterate(|passive_order, index| ...)` closure of
`match_order` in `lib.rs`, lines 62-93, as structural recursion over the
queue list. `dropF` and `idx` are the current `drop_first` value and
the index of the head of the remaining queue. -/
def matchWalk (side : OrderSide) (active : Order) (dropF idx : Nat) :
    List Order → WalkResult
  | [] => ⟨active, dropF, [], [], []⟩
  | p :: rest =>
    if price_matches side p active then
      if p.user_id = active.user_id then
        let r := matchWalk side active (idx + 1) (idx + 1) rest
        ⟨r.active, r.dropFirst, p :: r.retained, r.log, p :: r.queue⟩
      else
        let t := min active.size p.size
        let active' : Order := { active with size := active.size - t }
        let d0 := if p.size = t then idx + 1 else idx
        let item := LogItem.Fulfilled t p.price_limit p.user_id
        if active'.size = 0 then
          ⟨active', d0, [], [item], { p with size := p.size - t } :: rest⟩
        else
          let r := matchWalk side active' d0 (idx + 1) rest
          ⟨r.active, r.dropFirst, r.retained, item :: r.log, p :: r.queue⟩
    else
      ⟨active, dropF, [], [], p :: rest⟩

/-- Result of `match_order`: the queue after commit (or after a failed
FoK), the active order, the walk's log items, and whether
`logger.cancel()` was invoked. -/
structure MatchResult where
  queue : List Order
  active : Order
  log : List LogItem
  cancelled : Bool
deriving DecidableEq, Repr

/-- The body of `OrderQueueMatch::match_order` in `lib.rs`, lines 57-108:
run the walk; on a failed FoK reset the active size and cancel the log,
leaving the queue as the walk left it; otherwise drop the first
`drop_first` entries and push the retained clones back to the front. -/
def match_order (side : OrderSide) (queue : List Order) (active : Order)
    (kind : OrderKind) : MatchResult :=
  let initial_size := active.size
  let r := matchWalk side active 0 0 queue
  if kind = OrderKind.FillOrKill ∧ r.active.size ≠ 0 then
    { queue := r.queue, active := { r.active with size := initial_size },
      log := r.log, cancelled := true }
  else
    { queue := r.retained ++ r.queue.drop r.dropFirst, active := r.active,
      log := r.log, cancelled := false }

/-- Insertion at the first position satisfying the predicate, appending
at the tail when none does: `insert_position` followed by `insert_at`
or `push_back`, as in `OrderQueueInsert::insert` in `lib.rs`. -/
def insertAtPos (o : Order) (pred : Order → Bool) : List Order → List Order
  | [] => [o]
  | p :: rest => if pred p then o :: p :: rest else p :: insertAtPos o pred rest

/-- The body of `OrderQueueInsert::insert` in `lib.rs`, lines 33-52. -/
def insertOrder (side : OrderSide) (q : List Order) (o : Order) : List Order :=
  match side with
  | OrderSide.Buy => insertAtPos o (fun p => p.price_limit < o.price_limit) q
  | OrderSide.Sell => insertAtPos o (fun p => p.price_limit > o.price_limit) q

/-- The body of `OrderBook::execute_order` in `lib.rs`, lines 141-174.
Returns the new book and the per-call log (a failed FoK clears the
walk's items before the `Cancelled` entry is appended, matching
`logger.cancel()`). -/
def execute_order (book : OrderBook) (o : IncomingOrder) :
    OrderBook × List LogItem :=
  match o.side with
  | OrderSide.Buy =>
    let r := match_order OrderSide.Sell book.ask
      ⟨o.price_limit, o.size, o.user_id⟩ o.kind
    let log0 := if r.cancelled then [] else r.log
    if 0 < r.active.size then
      match o.kind with
      | OrderKind.Limit =>
          (⟨insertOrder OrderSide.Buy book.bid r.active, r.queue⟩,
            log0 ++ [LogItem.Enqueued r.active.size])
      | OrderKind.FillOrKill =>
          (⟨book.bid, r.queue⟩, log0 ++ [LogItem.Cancelled r.active.size])
      | OrderKind.ImmediateOrCancel =>
          (⟨book.bid, r.queue⟩, log0 ++ [LogItem.Cancelled r.active.size])
    else (⟨book.bid, r.queue⟩, log0)
  | OrderSide.Sell =>
    let r := match_order OrderSide.Buy book.bid
      ⟨o.price_limit, o.size, o.user_id⟩ o.kind
    let log0 := if r.cancelled then [] else r.log
    if 0 < r.active.size then
      match o.kind with
      | OrderKind.Limit =>
          (⟨r.queue, insertOrder OrderSide.Sell book.ask r.active⟩,
            log0 ++ [LogItem.Enqueued r.active.size])
      | OrderKind.FillOrKill =>
          (⟨r.queue, book.ask⟩, log0 ++ [LogItem.Cancelled r.active.size])
      | OrderKind.ImmediateOrCancel =>
          (⟨r.queue, book.ask⟩, log0 ++ [LogItem.Cancelled r.active.size])
    else (⟨r.queue, book.ask⟩, log0)

/-- Conversion of a resting order back to an incoming one, from
`Order::<D>::to_incoming` in `order.rs`: kind is always `Limit`,
side is the queue's side. -/
def Order.to_incoming (side : OrderSide) (o : Order) : IncomingOrder :=
  ⟨o.price_limit, o.size, o.user_id, OrderKind.Limit, side⟩

/-- The body of `OrderBook::to_vec` in `lib.rs`, lines 177-186: bids in
reverse queue order (worst price first), then asks in queue order. -/
def OrderBook.to_vec (b : OrderBook) : List IncomingOrder :=
  (b.bid.reverse.map (Order.to_incoming OrderSide.Buy)) ++
    (b.ask.map (Order.to_incoming OrderSide.Sell))

/-- The body of `OrderBook::from_vec` in `lib.rs`, lines 189-196:
replay the orders into an empty book (the `DummyLogger` discards the
log, so only the book component matters). -/
def OrderBook.from_vec (orders : List IncomingOrder) : OrderBook :=
  orders.foldl (fun b o => (execute_order b o).1) OrderBook.new

namespace VecDequeQueue

/-- The body of `VecDequeQueue::drop_first_n` in
`queues/vec_deque_queue.rs`: `self.0.drain(0..count)` removes the
first `count` elements of the deque. -/
def drop_first_n (count : Nat) (q : List Order) : List Order :=
  q.drop count

end VecDequeQueue

namespace SimpleVecQueue

/-- The body of `SimpleVecQueue::drop_first_n` in
`queues/simple_vec_queue.rs`: `count` repetitions of `self.0.pop()`,
each removing the LAST element of the vector; the vector is stored in
queue order (its `iterate` runs from index 0 upward), so this keeps
the first `len - count` elements. -/
def drop_first_n (count : Nat) (q : List Order) : List Order :=
  q.take (q.length - count)

end SimpleVecQueue

namespace ReversedVec

/-- Logical queue contents of a `ReversedVec`, whose backing vector
stores the queue back-to-front (`iterate` in `queues/reversed_vec.rs`
runs over `self.0.iter_mut().rev()`). -/
def toQueue (v : List Order) : List Order :=
  v.reverse

/-- The body of `ReversedVec::drop_first_n` in
`queues/reversed_vec.rs`: `self.0.truncate(self.0.len() - count)`
keeps the first `len - count` elements of the backing vector. -/
def drop_first_n (count : Nat) (v : List Order) : List Order :=
  v.take (v.length - count)

end ReversedVec

/-! Helper predicates and measures used by the statements. -/

/-- Sort relation maintained by a queue of the given side: bids are
weakly price-descending, asks weakly price-ascending. -/
def priceOrd (side : OrderSide) (x y : Order) : Prop :=
  match side with
  | OrderSide.Buy => y.price_limit ≤ x.price_limit
  | OrderSide.Sell => x.price_limit ≤ y.price_limit

/-- Ordering invariant of one queue. -/
def QueueSorted (side : OrderSide) (q : List Order) : Prop :=
  q.Pairwise (priceOrd side)

/-- Predicate of `insert_position` in `OrderQueueInsert::insert`:
the resting order `p` has a strictly worse price than the new order
`o` (strictly lower for a Buy queue, strictly higher for a Sell queue). -/
def worsePred (side : OrderSide) (o p : Order) : Bool :=
  match side with
  | OrderSide.Buy => p.price_limit < o.price_limit
  | OrderSide.Sell => p.price_limit > o.price_limit

/-- Price and user of an order (the fields matching never mutates). -/
def Order.key (o : Order) : Nat × Nat :=
  (o.price_limit, o.user_id)

/-- Total resting size of a queue. -/
def sizeSum (q : List Order) : Nat :=
  (q.map Order.size).sum

/-- Sum of the sizes of the `Fulfilled` items of a log. -/
def fulfilledTotal (log : List LogItem) : Nat :=
  (log.map fun it => match it with
    | LogItem.Fulfilled t _ _ => t
    | _ => 0).sum

/-- Sum of the sizes of the `Enqueued` and `Cancelled` items of a log
(the unmatched leftover of the aggressor). -/
def leftoverTotal (log : List LogItem) : Nat :=
  (log.map fun it => match it with
    | LogItem.Enqueued t => t
    | LogItem.Cancelled t => t
    | LogItem.Fulfilled _ _ _ => 0).sum

/-- Queue holding orders of the opposite side of `side`. -/
def opposingQueue (b : OrderBook) (side : OrderSide) : List Order :=
  match side with
  | OrderSide.Buy => b.ask
  | OrderSide.Sell => b.bid

/-- Queue holding orders of side `side` itself. -/
def sameSideQueue (b : OrderBook) (side : OrderSide) : List Order :=
  match side with
  | OrderSide.Buy => b.bid
  | OrderSide.Sell => b.ask

/-- Inductive invariant of a reachable book: both queues sorted, all
resting sizes positive, and any price-crossed resting pair shares its
`user_id` (crossed pairs arise only from self-trade avoidance). -/
def BookInv (b : OrderBook) : Prop :=
  QueueSorted OrderSide.Buy b.bid ∧ QueueSorted OrderSide.Sell b.ask ∧
    (∀ x ∈ b.bid, 0 < x.size) ∧ (∀ x ∈ b.ask, 0 < x.size) ∧
    (∀ x ∈ b.bid, ∀ y ∈ b.ask,
      y.price_limit ≤ x.price_limit → x.user_id = y.user_id)

/-! Basic walk lemmas. -/

lemma price_matches_size_irrel (s : OrderSide) (x a : Order) (n : Nat) :
    price_matches s x { a with size := n } = price_matches s x a := by
  cases s <;> rfl

lemma min_eq_right_of_sub_ne (a b : Nat) (h : a - min a b ≠ 0) :
    min a b = b := by
  rcases Nat.le_total a b with hab | hba
  · exact absurd (by simp [Nat.min_eq_left hab]) h
  · exact Nat.min_eq_right hba

/-- Unfold lemma: empty queue. -/
lemma matchWalk_nil (s : OrderSide) (a : Order) (dF i : Nat) :
    matchWalk s a dF i [] = ⟨a, dF, [], [], []⟩ := rfl

/-- Unfold lemma: the head fails the price check and the walk stops. -/
lemma matchWalk_cons_stop (s : OrderSide) (a p : Order) (dF i : Nat)
    (rest : List Order) (hpm : ¬ price_matches s p a = true) :
    matchWalk s a dF i (p :: rest) = ⟨a, dF, [], [], p :: rest⟩ := by
  simp [matchWalk, hpm]

/-- Unfold lemma: self-trade avoidance skips the head. -/
lemma matchWalk_cons_skip (s : OrderSide) (a p : Order) (dF i : Nat)
    (rest : List Order) (hpm : price_matches s p a = true)
    (hu : p.user_id = a.user_id) :
    matchWalk s a dF i (p :: rest) =
      ⟨(matchWalk s a (i + 1) (i + 1) rest).active,
        (matchWalk s a (i + 1) (i + 1) rest).dropFirst,
        p :: (matchWalk s a (i + 1) (i + 1) rest).retained,
        (matchWalk s a (i + 1) (i + 1) rest).log,
        p :: (matchWalk s a (i + 1) (i + 1) rest).queue⟩ := by
  simp [matchWalk, hpm, hu]

/-- Unfold lemma: a trade that exhausts the active order ends the walk,
applying the in-place size decrement to the head passive order. -/
lemma matchWalk_cons_fill (s : OrderSide) (a p : Order) (dF i : Nat)
    (rest : List Order) (hpm : price_matches s p a = true)
    (hu : ¬ p.user_id = a.user_id)
    (hz : a.size - min a.size p.size = 0) :
    matchWalk s a dF i (p :: rest) =
      ⟨{ a with size := a.size - min a.size p.size },
        (if p.size = min a.size p.size then i + 1 else i), [],
        [LogItem.Fulfilled (min a.size p.size) p.price_limit p.user_id],
        { p with size := p.size - min a.size p.size } :: rest⟩ := by
  simp only [matchWalk, if_pos hpm, if_neg hu]
  rw [if_pos hz]

/-- Unfold lemma: a trade that fully consumes the head passive order
while the active order still has remaining size; the walk continues. -/
lemma matchWalk_cons_trade (s : OrderSide) (a p : Order) (dF i : Nat)
    (rest : List Order) (hpm : price_matches s p a = true)
    (hu : ¬ p.user_id = a.user_id)
    (hz : ¬ a.size - min a.size p.size = 0) :
    matchWalk s a dF i (p :: rest) =
      ⟨(matchWalk s { a with size := a.size - min a.size p.size }
          (i + 1) (i + 1) rest).active,
        (matchWalk s { a with size := a.size - min a.size p.size }
          (i + 1) (i + 1) rest).dropFirst,
        (matchWalk s { a with size := a.size - min a.size p.size }
          (i + 1) (i + 1) rest).retained,
        LogItem.Fulfilled (min a.size p.size) p.price_limit p.user_id ::
          (matchWalk s { a with size := a.size - min a.size p.size }
            (i + 1) (i + 1) rest).log,
        p :: (matchWalk s { a with size := a.size - min a.size p.size }
          (i + 1) (i + 1) rest).queue⟩ := by
  have hfull : p.size = min a.size p.size :=
    (min_eq_right_of_sub_ne a.size p.size hz).symm
  simp only [matchWalk, if_pos hpm, if_neg hu]
  rw [if_neg hz, if_pos hfull]

/-- The walk changes only the active order's size. -/
lemma matchWalk_active_fields (s : OrderSide) (a : Order) (dF i : Nat)
    (q : List Order) :
    (matchWalk s a dF i q).active.price_limit = a.price_limit ∧
      (matchWalk s a dF i q).active.user_id = a.user_id := by
  induction q generalizing a dF i with
  | nil => exact ⟨rfl, rfl⟩
  | cons p rest ih =>
    by_cases hpm : price_matches s p a = true
    · by_cases hu : p.user_id = a.user_id
      · rw [matchWalk_cons_skip s a p dF i rest hpm hu]
        exact ih a (i + 1) (i + 1)
      · by_cases hz : a.size - min a.size p.size = 0
        · rw [matchWalk_cons_fill s a p dF i rest hpm hu hz]
          exact ⟨rfl, rfl⟩
        · rw [matchWalk_cons_trade s a p dF i rest hpm hu hz]
          exact ih { a with size := a.size - min a.size p.size } (i + 1) (i + 1)
    · rw [matchWalk_cons_stop s a p dF i rest hpm]
      exact ⟨rfl, rfl⟩

/-- The walk never decreases `drop_first`. -/
lemma matchWalk_dropFirst_ge (s : OrderSide) (a : Order) (dF i : Nat)
    (q : List Order) (h : dF ≤ i) :
    dF ≤ (matchWalk s a dF i q).dropFirst := by
  induction q generalizing a dF i with
  | nil => exact Nat.le.refl
  | cons p rest ih =>
    by_cases hpm : price_matches s p a = true
    · by_cases hu : p.user_id = a.user_id
      · rw [matchWalk_cons_skip s a p dF i rest hpm hu]
        exact (h.trans (Nat.le_succ i)).trans (ih a (i + 1) (i + 1) (Nat.le_refl _))
      · by_cases hz : a.size - min a.size p.size = 0
        · rw [matchWalk_cons_fill s a p dF i rest hpm hu hz]
          dsimp only
          by_cases hfull : p.size = min a.size p.size
          · simp only [if_pos hfull]
            omega
          · simp only [if_neg hfull]
            exact h
        · rw [matchWalk_cons_trade s a p dF i rest hpm hu hz]
          exact (h.trans (Nat.le_succ i)).trans
            (ih { a with size := a.size - min a.size p.size } (i + 1) (i + 1)
              (Nat.le_refl _))
    · rw [matchWalk_cons_stop s a p dF i rest hpm]

/-- Upper bound on the final `drop_first`. -/
lemma matchWalk_dropFirst_le (s : OrderSide) (a : Order) (dF i : Nat)
    (q : List Order) (h : dF ≤ i) :
    (matchWalk s a dF i q).dropFirst ≤ i + q.length := by
  induction q generalizing a dF i with
  | nil => simpa [matchWalk_nil] using h.trans (Nat.le_add_right i 0)
  | cons p rest ih =>
    by_cases hpm : price_matches s p a = true
    · by_cases hu : p.user_id = a.user_id
      · rw [matchWalk_cons_skip s a p dF i rest hpm hu]
        have := ih a (i + 1) (i + 1) (Nat.le_refl _)
        simpa [List.length_cons, Nat.add_comm, Nat.add_left_comm] using this
      · by_cases hz : a.size - min a.size p.size = 0
        · rw [matchWalk_cons_fill s a p dF i rest hpm hu hz]
          dsimp only
          by_cases hfull : p.size = min a.size p.size
          · simp only [if_pos hfull, List.length_cons]
            omega
          · simp only [if_neg hfull, List.length_cons]
            omega
        · rw [matchWalk_cons_trade s a p dF i rest hpm hu hz]
          have := ih { a with size := a.size - min a.size p.size }
            (i + 1) (i + 1) (Nat.le_refl _)
          simpa [List.length_cons, Nat.add_comm, Nat.add_left_comm] using this
    · rw [matchWalk_cons_stop s a p dF i rest hpm]
      dsimp only
      simp only [List.length_cons]
      omega

/-- The walk leaves prices and user ids of queue entries unchanged
(only sizes may be mutated in place). -/
lemma matchWalk_queue_key (s : OrderSide) (a : Order) (dF i : Nat)
    (q : List Order) :
    (matchWalk s a dF i q).queue.map Order.key = q.map Order.key := by
  induction q generalizing a dF i with
  | nil => rfl
  | cons p rest ih =>
    by_cases hpm : price_matches s p a = true
    · by_cases hu : p.user_id = a.user_id
      · rw [matchWalk_cons_skip s a p dF i rest hpm hu]
        simpa using ih a (i + 1) (i + 1)
      · by_cases hz : a.size - min a.size p.size = 0
        · rw [matchWalk_cons_fill s a p dF i rest hpm hu hz]
          simp [Order.key]
        · rw [matchWalk_cons_trade s a p dF i rest hpm hu hz]
          simpa using ih { a with size := a.size - min a.size p.size } (i + 1) (i + 1)
    · rw [matchWalk_cons_stop s a p dF i rest hpm]

/-- When the walk ends with remaining active size, no in-place size
mutation ever happened: the queue contents are exactly the input.
(The `passive_order.size -= size` write occurs only in the
`order.size == 0` stop branch.) -/
lemma matchWalk_queue_of_size_ne (s : OrderSide) (a : Order) (dF i : Nat)
    (q : List Order) (h : (matchWalk s a dF i q).active.size ≠ 0) :
    (matchWalk s a dF i q).queue = q := by
  induction q generalizing a dF i with
  | nil => rfl
  | cons p rest ih =>
    by_cases hpm : price_matches s p a = true
    · by_cases hu : p.user_id = a.user_id
      · rw [matchWalk_cons_skip s a p dF i rest hpm hu] at h ⊢
        simpa using ih a (i + 1) (i + 1) (by simpa using h)
      · by_cases hz : a.size - min a.size p.size = 0
        · rw [matchWalk_cons_fill s a p dF i rest hpm hu hz] at h
          exact absurd hz (by simpa using h)
        · rw [matchWalk_cons_trade s a p dF i rest hpm hu hz] at h ⊢
          simpa using
            ih { a with size := a.size - min a.size p.size } (i + 1) (i + 1)
              (by simpa using h)
    · rw [matchWalk_cons_stop s a p dF i rest hpm]

/-- Every log item the walk emits is a `Fulfilled` item. -/
lemma matchWalk_log_fulfilled (s : OrderSide) (a : Order) (dF i : Nat)
    (q : List Order) :
    ∀ it ∈ (matchWalk s a dF i q).log, it.isFulfilled = true := by
  induction q generalizing a dF i with
  | nil => intro it hit; simp [matchWalk_nil] at hit
  | cons p rest ih =>
    by_cases hpm : price_matches s p a = true
    · by_cases hu : p.user_id = a.user_id
      · rw [matchWalk_cons_skip s a p dF i rest hpm hu]
        simpa using ih a (i + 1) (i + 1)
      · by_cases hz : a.size - min a.size p.size = 0
        · rw [matchWalk_cons_fill s a p dF i rest hpm hu hz]
          intro it hit
          simp at hit
          simp [hit, LogItem.isFulfilled]
        · rw [matchWalk_cons_trade s a p dF i rest hpm hu hz]
          intro it hit
          simp at hit
          rcases hit with hit | hit
          · simp [hit, LogItem.isFulfilled]
          · exact ih { a with size := a.size - min a.size p.size } (i + 1) (i + 1) it hit
    · rw [matchWalk_cons_stop s a p dF i rest hpm]
      intro it hit
      simp at hit

/-- Conservation on the aggressor side: the final active size plus the
total of emitted `Fulfilled` sizes is the initial active size. -/
lemma matchWalk_active_size (s : OrderSide) (a : Order) (dF i : Nat)
    (q : List Order) :
    (matchWalk s a dF i q).active.size +
      fulfilledTotal (matchWalk s a dF i q).log = a.size := by
  induction q generalizing a dF i with
  | nil => simp [matchWalk_nil, fulfilledTotal]
  | cons p rest ih =>
    by_cases hpm : price_matches s p a = true
    · by_cases hu : p.user_id = a.user_id
      · rw [matchWalk_cons_skip s a p dF i rest hpm hu]
        simpa using ih a (i + 1) (i + 1)
      · by_cases hz : a.size - min a.size p.size = 0
        · rw [matchWalk_cons_fill s a p dF i rest hpm hu hz]
          dsimp only
          simp only [fulfilledTotal, List.map_cons, List.map_nil, List.sum_cons,
            List.sum_nil]
          omega
        · rw [matchWalk_cons_trade s a p dF i rest hpm hu hz]
          have := ih { a with size := a.size - min a.size p.size } (i + 1) (i + 1)
          simp [fulfilledTotal] at this ⊢
          omega
    · rw [matchWalk_cons_stop s a p dF i rest hpm]
      simp [fulfilledTotal]

/-- A walk that emitted no log item traded nothing: the active order is
unchanged and the commit (dropping the first `drop_first` entries and
restoring `retained`) reproduces the input queue exactly. -/
lemma matchWalk_log_nil (s : OrderSide) (a : Order) (dF i : Nat)
    (q : List Order) (h : dF ≤ i)
    (hl : (matchWalk s a dF i q).log = []) :
    (matchWalk s a dF i q).active = a ∧
      (matchWalk s a dF i q).queue = q ∧
      (matchWalk s a dF i q).retained ++
        q.drop ((matchWalk s a dF i q).dropFirst - i) = q := by
  induction q generalizing a dF i with
  | nil => exact ⟨rfl, rfl, by simp [matchWalk_nil]⟩
  | cons p rest ih =>
    by_cases hpm : price_matches s p a = true
    · by_cases hu : p.user_id = a.user_id
      · rw [matchWalk_cons_skip s a p dF i rest hpm hu] at hl ⊢
        have hge : i + 1 ≤ (matchWalk s a (i + 1) (i + 1) rest).dropFirst :=
          matchWalk_dropFirst_ge s a (i + 1) (i + 1) rest (Nat.le_refl _)
        obtain ⟨h1, h2, h3⟩ :=
          ih a (i + 1) (i + 1) (Nat.le_refl _) (by simpa using hl)
        refine ⟨by simpa using h1, by simp only [h2], ?_⟩
        have hk : (matchWalk s a (i + 1) (i + 1) rest).dropFirst - i =
            ((matchWalk s a (i + 1) (i + 1) rest).dropFirst - (i + 1)) + 1 := by
          omega
        rw [hk, List.drop_succ_cons, List.cons_append, h3]
      · by_cases hz : a.size - min a.size p.size = 0
        · rw [matchWalk_cons_fill s a p dF i rest hpm hu hz] at hl
          simp at hl
        · rw [matchWalk_cons_trade s a p dF i rest hpm hu hz] at hl
          simp at hl
    · rw [matchWalk_cons_stop s a p dF i rest hpm]
      have hk : dF - i = 0 := by omega
      simp [hk]

/-- When every price-matching entry belongs to the aggressor's own
user, the walk logs nothing and leaves the active order unchanged. -/
lemma matchWalk_all_skip (s : OrderSide) (a : Order) (dF i : Nat)
    (q : List Order)
    (hall : ∀ x ∈ q, price_matches s x a = true → x.user_id = a.user_id) :
    (matchWalk s a dF i q).log = [] ∧ (matchWalk s a dF i q).active = a := by
  induction q generalizing a dF i with
  | nil => exact ⟨rfl, rfl⟩
  | cons p rest ih =>
    by_cases hpm : price_matches s p a = true
    · have hu : p.user_id = a.user_id := hall p (List.mem_cons_self p rest) hpm
      rw [matchWalk_cons_skip s a p dF i rest hpm hu]
      have := ih a (i + 1) (i + 1) (fun x hx => hall x (List.mem_cons_of_mem p hx))
      exact ⟨this.1, this.2⟩
    · rw [matchWalk_cons_stop s a p dF i rest hpm]
      exact ⟨rfl, rfl⟩

/-- The retained list is exactly the same-user entries of the dropped
front of the queue, in their original relative order. -/
lemma matchWalk_retained_filter (s : OrderSide) (a : Order) (dF i : Nat)
    (q : List Order) (h : dF ≤ i) :
    (matchWalk s a dF i q).retained =
      (q.take ((matchWalk s a dF i q).dropFirst - i)).filter
        (fun p => p.user_id == a.user_id) := by
  induction q generalizing a dF i with
  | nil => simp [matchWalk_nil]
  | cons p rest ih =>
    by_cases hpm : price_matches s p a = true
    · by_cases hu : p.user_id = a.user_id
      · rw [matchWalk_cons_skip s a p dF i rest hpm hu]
        have hge : i + 1 ≤ (matchWalk s a (i + 1) (i + 1) rest).dropFirst :=
          matchWalk_dropFirst_ge s a (i + 1) (i + 1) rest (Nat.le_refl _)
        have hk : (matchWalk s a (i + 1) (i + 1) rest).dropFirst - i =
            ((matchWalk s a (i + 1) (i + 1) rest).dropFirst - (i + 1)) + 1 := by
          omega
        dsimp only
        rw [hk, List.take_succ_cons, List.filter_cons_of_pos (by simpa using hu)]
        exact congrArg _ (ih a (i + 1) (i + 1) (Nat.le_refl _))
      · by_cases hz : a.size - min a.size p.size = 0
        · rw [matchWalk_cons_fill s a p dF i rest hpm hu hz]
          dsimp only
          by_cases hfull : p.size = min a.size p.size
          · rw [if_pos hfull]
            have hk : i + 1 - i = 1 := by omega
            rw [hk, List.take_succ_cons, List.take_zero,
              List.filter_cons_of_neg (by simpa using hu)]
            rfl
          · rw [if_neg hfull]
            simp
        · rw [matchWalk_cons_trade s a p dF i rest hpm hu hz]
          have hge : i + 1 ≤ (matchWalk s
              { a with size := a.size - min a.size p.size }
              (i + 1) (i + 1) rest).dropFirst :=
            matchWalk_dropFirst_ge s _ (i + 1) (i + 1) rest (Nat.le_refl _)
          have hk : (matchWalk s { a with size := a.size - min a.size p.size }
              (i + 1) (i + 1) rest).dropFirst - i =
              ((matchWalk s { a with size := a.size - min a.size p.size }
                (i + 1) (i + 1) rest).dropFirst - (i + 1)) + 1 := by
            omega
          dsimp only
          rw [hk, List.take_succ_cons, List.filter_cons_of_neg (by simpa using hu)]
          simpa using ih { a with size := a.size - min a.size p.size }
            (i + 1) (i + 1) (Nat.le_refl _)
    · rw [matchWalk_cons_stop s a p dF i rest hpm]
      have hk : dF - i = 0 := by omega
      simp [hk]

lemma Order.key_set_size (p : Order) (n : Nat) :
    Order.key { p with size := n } = Order.key p := rfl

/-- The committed queue (retained clones followed by the surviving
suffix) is, price- and user-wise, a sublist of the input queue. -/
lemma matchWalk_commit_key_sublist (s : OrderSide) (a : Order) (dF i : Nat)
    (q : List Order) (h : dF ≤ i) :
    (((matchWalk s a dF i q).retained ++
        (matchWalk s a dF i q).queue.drop
          ((matchWalk s a dF i q).dropFirst - i)).map Order.key).Sublist
      (q.map Order.key) := by
  induction q generalizing a dF i with
  | nil => simp [matchWalk_nil]
  | cons p rest ih =>
    by_cases hpm : price_matches s p a = true
    · by_cases hu : p.user_id = a.user_id
      · rw [matchWalk_cons_skip s a p dF i rest hpm hu]
        have hge : i + 1 ≤ (matchWalk s a (i + 1) (i + 1) rest).dropFirst :=
          matchWalk_dropFirst_ge s a (i + 1) (i + 1) rest (Nat.le_refl _)
        have hk : (matchWalk s a (i + 1) (i + 1) rest).dropFirst - i =
            ((matchWalk s a (i + 1) (i + 1) rest).dropFirst - (i + 1)) + 1 := by
          omega
        dsimp only
        rw [hk, List.drop_succ_cons, List.cons_append, List.map_cons,
          List.map_cons]
        exact List.Sublist.cons₂ _ (ih a (i + 1) (i + 1) (Nat.le_refl _))
      · by_cases hz : a.size - min a.size p.size = 0
        · rw [matchWalk_cons_fill s a p dF i rest hpm hu hz]
          dsimp only
          by_cases hfull : p.size = min a.size p.size
          · rw [if_pos hfull]
            have hk : i + 1 - i = 1 := by omega
            rw [hk, List.drop_succ_cons, List.drop_zero, List.nil_append,
              List.map_cons]
            exact List.Sublist.cons _ (List.Sublist.refl _)
          · rw [if_neg hfull]
            have hk : i - i = 0 := by omega
            rw [hk, List.drop_zero, List.nil_append, List.map_cons,
              List.map_cons, Order.key_set_size]
        · rw [matchWalk_cons_trade s a p dF i rest hpm hu hz]
          have hge : i + 1 ≤ (matchWalk s
              { a with size := a.size - min a.size p.size }
              (i + 1) (i + 1) rest).dropFirst :=
            matchWalk_dropFirst_ge s _ (i + 1) (i + 1) rest (Nat.le_refl _)
          have hk : (matchWalk s { a with size := a.size - min a.size p.size }
              (i + 1) (i + 1) rest).dropFirst - i =
              ((matchWalk s { a with size := a.size - min a.size p.size }
                (i + 1) (i + 1) rest).dropFirst - (i + 1)) + 1 := by
            omega
          dsimp only
          rw [hk, List.drop_succ_cons, List.map_cons]
          exact List.Sublist.cons _
            (ih { a with size := a.size - min a.size p.size } (i + 1) (i + 1)
              (Nat.le_refl _))
    · rw [matchWalk_cons_stop s a p dF i rest hpm]
      have hk : dF - i = 0 := by omega
      dsimp only
      rw [hk, List.drop_zero, List.nil_append]

/-- Every entry of the committed queue keeps a positive size when the
input queue's entries all have positive sizes. -/
lemma matchWalk_commit_pos (s : OrderSide) (a : Order) (dF i : Nat)
    (q : List Order) (h : dF ≤ i) (hpos : ∀ x ∈ q, 0 < x.size) :
    ∀ x ∈ (matchWalk s a dF i q).retained ++
        (matchWalk s a dF i q).queue.drop
          ((matchWalk s a dF i q).dropFirst - i), 0 < x.size := by
  induction q generalizing a dF i with
  | nil => intro x hx; simp [matchWalk_nil] at hx
  | cons p rest ih =>
    have hp : 0 < p.size := hpos p (List.mem_cons_self p rest)
    have hrest : ∀ x ∈ rest, 0 < x.size :=
      fun x hx => hpos x (List.mem_cons_of_mem p hx)
    by_cases hpm : price_matches s p a = true
    · by_cases hu : p.user_id = a.user_id
      · rw [matchWalk_cons_skip s a p dF i rest hpm hu]
        have hge : i + 1 ≤ (matchWalk s a (i + 1) (i + 1) rest).dropFirst :=
          matchWalk_dropFirst_ge s a (i + 1) (i + 1) rest (Nat.le_refl _)
        have hk : (matchWalk s a (i + 1) (i + 1) rest).dropFirst - i =
            ((matchWalk s a (i + 1) (i + 1) rest).dropFirst - (i + 1)) + 1 := by
          omega
        dsimp only
        rw [hk, List.drop_succ_cons, List.cons_append]
        intro x hx
        rcases List.mem_cons.mp hx with hx | hx
        · exact hx ▸ hp
        · exact ih a (i + 1) (i + 1) (Nat.le_refl _) hrest x hx
      · by_cases hz : a.size - min a.size p.size = 0
        · rw [matchWalk_cons_fill s a p dF i rest hpm hu hz]
          dsimp only
          by_cases hfull : p.size = min a.size p.size
          · rw [if_pos hfull]
            have hk : i + 1 - i = 1 := by omega
            rw [hk, List.drop_succ_cons, List.drop_zero, List.nil_append]
            exact hrest
          · rw [if_neg hfull]
            have hk : i - i = 0 := by omega
            rw [hk, List.drop_zero, List.nil_append]
            intro x hx
            rcases List.mem_cons.mp hx with hx | hx
            · have : min a.size p.size < p.size :=
                Nat.lt_of_le_of_ne (Nat.min_le_right _ _)
                  (fun hmin => hfull hmin.symm)
              subst hx
              simpa using Nat.sub_pos_of_lt this
            · exact hrest x hx
        · rw [matchWalk_cons_trade s a p dF i rest hpm hu hz]
          have hge : i + 1 ≤ (matchWalk s
              { a with size := a.size - min a.size p.size }
              (i + 1) (i + 1) rest).dropFirst :=
            matchWalk_dropFirst_ge s _ (i + 1) (i + 1) rest (Nat.le_refl _)
          have hk : (matchWalk s { a with size := a.size - min a.size p.size }
              (i + 1) (i + 1) rest).dropFirst - i =
              ((matchWalk s { a with size := a.size - min a.size p.size }
                (i + 1) (i + 1) rest).dropFirst - (i + 1)) + 1 := by
            omega
          dsimp only
          rw [hk, List.drop_succ_cons]
          exact ih { a with size := a.size - min a.size p.size } (i + 1) (i + 1)
            (Nat.le_refl _) hrest
    · rw [matchWalk_cons_stop s a p dF i rest hpm]
      have hk : dF - i = 0 := by omega
      dsimp only
      rw [hk, List.drop_zero, List.nil_append]
      exact hpos

lemma sizeSum_nil : sizeSum [] = 0 := rfl

lemma sizeSum_cons (p : Order) (l : List Order) :
    sizeSum (p :: l) = p.size + sizeSum l := by
  simp [sizeSum]

lemma sizeSum_append (l₁ l₂ : List Order) :
    sizeSum (l₁ ++ l₂) = sizeSum l₁ + sizeSum l₂ := by
  simp [sizeSum]

lemma fulfilledTotal_nil : fulfilledTotal [] = 0 := rfl

lemma fulfilledTotal_cons (it : LogItem) (l : List LogItem) :
    fulfilledTotal (it :: l) =
      (match it with
        | LogItem.Fulfilled t _ _ => t
        | _ => 0) + fulfilledTotal l := by
  simp [fulfilledTotal]

/-- Conservation on the passive side: the input queue's total size is
the committed queue's total size plus the total of `Fulfilled` sizes. -/
lemma matchWalk_commit_sum (s : OrderSide) (a : Order) (dF i : Nat)
    (q : List Order) (h : dF ≤ i) :
    sizeSum q =
      sizeSum ((matchWalk s a dF i q).retained ++
        (matchWalk s a dF i q).queue.drop
          ((matchWalk s a dF i q).dropFirst - i)) +
        fulfilledTotal (matchWalk s a dF i q).log := by
  induction q generalizing a dF i with
  | nil => simp [matchWalk_nil, sizeSum_nil, fulfilledTotal_nil]
  | cons p rest ih =>
    by_cases hpm : price_matches s p a = true
    · by_cases hu : p.user_id = a.user_id
      · rw [matchWalk_cons_skip s a p dF i rest hpm hu]
        have hge : i + 1 ≤ (matchWalk s a (i + 1) (i + 1) rest).dropFirst :=
          matchWalk_dropFirst_ge s a (i + 1) (i + 1) rest (Nat.le_refl _)
        have hk : (matchWalk s a (i + 1) (i + 1) rest).dropFirst - i =
            ((matchWalk s a (i + 1) (i + 1) rest).dropFirst - (i + 1)) + 1 := by
          omega
        dsimp only
        rw [hk, List.drop_succ_cons, List.cons_append, sizeSum_cons,
          sizeSum_cons]
        have := ih a (i + 1) (i + 1) (Nat.le_refl _)
        omega
      · by_cases hz : a.size - min a.size p.size = 0
        · rw [matchWalk_cons_fill s a p dF i rest hpm hu hz]
          dsimp only
          by_cases hfull : p.size = min a.size p.size
          · rw [if_pos hfull]
            have hk : i + 1 - i = 1 := by omega
            rw [hk, List.drop_succ_cons, List.drop_zero, List.nil_append,
              sizeSum_cons, fulfilledTotal_cons, fulfilledTotal_nil]
            dsimp only
            omega
          · rw [if_neg hfull]
            have hk : i - i = 0 := by omega
            have hle : min a.size p.size ≤ p.size := Nat.min_le_right _ _
            rw [hk, List.drop_zero, List.nil_append, sizeSum_cons,
              sizeSum_cons, fulfilledTotal_cons, fulfilledTotal_nil]
            dsimp only
            omega
        · rw [matchWalk_cons_trade s a p dF i rest hpm hu hz]
          have hfull : p.size = min a.size p.size :=
            (min_eq_right_of_sub_ne a.size p.size hz).symm
          have hge : i + 1 ≤ (matchWalk s
              { a with size := a.size - min a.size p.size }
              (i + 1) (i + 1) rest).dropFirst :=
            matchWalk_dropFirst_ge s _ (i + 1) (i + 1) rest (Nat.le_refl _)
          have hk : (matchWalk s { a with size := a.size - min a.size p.size }
              (i + 1) (i + 1) rest).dropFirst - i =
              ((matchWalk s { a with size := a.size - min a.size p.size }
                (i + 1) (i + 1) rest).dropFirst - (i + 1)) + 1 := by
            omega
          dsimp only
          rw [hk, List.drop_succ_cons, sizeSum_cons, fulfilledTotal_cons]
          have := ih { a with size := a.size - min a.size p.size }
            (i + 1) (i + 1) (Nat.le_refl _)
          dsimp only
          omega
    · rw [matchWalk_cons_stop s a p dF i rest hpm]
      have hk : dF - i = 0 := by omega
      dsimp only
      rw [hk, List.drop_zero, List.nil_append, fulfilledTotal_nil]
      omega

/-- Price monotонicity along a sorted queue: once an entry fails the
price check, every later entry fails it as well. -/
lemma price_matches_mono (s : OrderSide) (p x a : Order)
    (hord : priceOrd s p x) (hp : ¬ price_matches s p a = true) :
    price_matches s x a = false := by
  cases s <;>
    · simp [price_matches, priceOrd] at hord hp ⊢
      omega

/-- When the walk ends with remaining active size, every entry from the
`drop_first` position onward fails the price check against the
aggressor (the walk stopped on a price miss or queue exhaustion). -/
lemma matchWalk_tail_no_match (s : OrderSide) (a : Order) (dF i : Nat)
    (q : List Order) (h : dF ≤ i) (hs : q.Pairwise (priceOrd s))
    (hne : (matchWalk s a dF i q).active.size ≠ 0) :
    ∀ x ∈ (matchWalk s a dF i q).queue.drop
        ((matchWalk s a dF i q).dropFirst - i),
      price_matches s x a = false := by
  induction q generalizing a dF i with
  | nil => intro x hx; simp [matchWalk_nil] at hx
  | cons p rest ih =>
    obtain ⟨hhead, htail⟩ := List.pairwise_cons.mp hs
    by_cases hpm : price_matches s p a = true
    · by_cases hu : p.user_id = a.user_id
      · rw [matchWalk_cons_skip s a p dF i rest hpm hu] at hne ⊢
        have hge : i + 1 ≤ (matchWalk s a (i + 1) (i + 1) rest).dropFirst :=
          matchWalk_dropFirst_ge s a (i + 1) (i + 1) rest (Nat.le_refl _)
        have hk : (matchWalk s a (i + 1) (i + 1) rest).dropFirst - i =
            ((matchWalk s a (i + 1) (i + 1) rest).dropFirst - (i + 1)) + 1 := by
          omega
        dsimp only at hne ⊢
        rw [hk, List.drop_succ_cons]
        exact ih a (i + 1) (i + 1) (Nat.le_refl _) htail hne
      · by_cases hz : a.size - min a.size p.size = 0
        · rw [matchWalk_cons_fill s a p dF i rest hpm hu hz] at hne
          exact absurd hz (by simpa using hne)
        · rw [matchWalk_cons_trade s a p dF i rest hpm hu hz] at hne ⊢
          have hge : i + 1 ≤ (matchWalk s
              { a with size := a.size - min a.size p.size }
              (i + 1) (i + 1) rest).dropFirst :=
            matchWalk_dropFirst_ge s _ (i + 1) (i + 1) rest (Nat.le_refl _)
          have hk : (matchWalk s { a with size := a.size - min a.size p.size }
              (i + 1) (i + 1) rest).dropFirst - i =
              ((matchWalk s { a with size := a.size - min a.size p.size }
                (i + 1) (i + 1) rest).dropFirst - (i + 1)) + 1 := by
            omega
          dsimp only at hne ⊢
          rw [hk, List.drop_succ_cons]
          intro x hx
          have := ih { a with size := a.size - min a.size p.size }
            (i + 1) (i + 1) (Nat.le_refl _) htail (by simpa using hne) x hx
          simpa [price_matches_size_irrel] using this
    · rw [matchWalk_cons_stop s a p dF i rest hpm]
      have hk : dF - i = 0 := by omega
      dsimp only
      rw [hk, List.drop_zero]
      intro x hx
      rcases List.mem_cons.mp hx with hx | hx
      · subst hx
        exact Bool.not_eq_true _ ▸ (by simpa using hpm)
      · exact price_matches_mono s p x a (hhead x hx) hpm

/-- Shape of the surviving suffix after commit: it is the corresponding
suffix of the input queue, either unchanged or with only its first
entry (the partially consumed passive order) reduced in size. -/
lemma matchWalk_queue_drop_shape (s : OrderSide) (a : Order) (dF i : Nat)
    (q : List Order) (h : dF ≤ i) :
    (matchWalk s a dF i q).queue.drop ((matchWalk s a dF i q).dropFirst - i) =
        q.drop ((matchWalk s a dF i q).dropFirst - i) ∨
      ∃ p rest' t,
        q.drop ((matchWalk s a dF i q).dropFirst - i) = p :: rest' ∧
        0 < t ∧ t < p.size ∧
        (matchWalk s a dF i q).queue.drop
          ((matchWalk s a dF i q).dropFirst - i) =
            { p with size := p.size - t } :: rest' := by
  induction q generalizing a dF i with
  | nil => left; simp [matchWalk_nil]
  | cons p rest ih =>
    by_cases hpm : price_matches s p a = true
    · by_cases hu : p.user_id = a.user_id
      · rw [matchWalk_cons_skip s a p dF i rest hpm hu]
        have hge : i + 1 ≤ (matchWalk s a (i + 1) (i + 1) rest).dropFirst :=
          matchWalk_dropFirst_ge s a (i + 1) (i + 1) rest (Nat.le_refl _)
        have hk : (matchWalk s a (i + 1) (i + 1) rest).dropFirst - i =
            ((matchWalk s a (i + 1) (i + 1) rest).dropFirst - (i + 1)) + 1 := by
          omega
        dsimp only
        rw [hk, List.drop_succ_cons, List.drop_succ_cons]
        exact ih a (i + 1) (i + 1) (Nat.le_refl _)
      · by_cases hz : a.size - min a.size p.size = 0
        · rw [matchWalk_cons_fill s a p dF i rest hpm hu hz]
          dsimp only
          by_cases hfull : p.size = min a.size p.size
          · rw [if_pos hfull]
            have hk : i + 1 - i = 1 := by omega
            rw [hk, List.drop_succ_cons, List.drop_succ_cons]
            exact Or.inl rfl
          · rw [if_neg hfull]
            have hk : i - i = 0 := by omega
            rw [hk, List.drop_zero, List.drop_zero]
            by_cases ht : min a.size p.size = 0
            · left
              rw [ht]
              congr 1
            · right
              refine ⟨p, rest, min a.size p.size, rfl, Nat.pos_of_ne_zero ht,
                Nat.lt_of_le_of_ne (Nat.min_le_right _ _)
                  (fun hmin => hfull hmin.symm), rfl⟩
        · rw [matchWalk_cons_trade s a p dF i rest hpm hu hz]
          have hge : i + 1 ≤ (matchWalk s
              { a with size := a.size - min a.size p.size }
              (i + 1) (i + 1) rest).dropFirst :=
            matchWalk_dropFirst_ge s _ (i + 1) (i + 1) rest (Nat.le_refl _)
          have hk : (matchWalk s { a with size := a.size - min a.size p.size }
              (i + 1) (i + 1) rest).dropFirst - i =
              ((matchWalk s { a with size := a.size - min a.size p.size }
                (i + 1) (i + 1) rest).dropFirst - (i + 1)) + 1 := by
            omega
          dsimp only
          rw [hk, List.drop_succ_cons, List.drop_succ_cons]
          exact ih { a with size := a.size - min a.size p.size } (i + 1) (i + 1)
            (Nat.le_refl _)
    · rw [matchWalk_cons_stop s a p dF i rest hpm]
      left
      dsimp only

/-! Insertion lemmas. -/

lemma insertOrder_eq (side : OrderSide) (q : List Order) (o : Order) :
    insertOrder side q o = insertAtPos o (worsePred side o) q := by
  cases side <;> rfl

lemma insertAtPos_eq_takeWhile (o : Order) (pred : Order → Bool)
    (q : List Order) :
    insertAtPos o pred q =
      q.takeWhile (fun p => !(pred p)) ++
        o :: q.dropWhile (fun p => !(pred p)) := by
  induction q with
  | nil => rfl
  | cons p rest ih =>
    by_cases hp : pred p = true
    · simp [insertAtPos, hp, List.takeWhile_cons, List.dropWhile_cons]
    · simp [insertAtPos, hp, List.takeWhile_cons, List.dropWhile_cons, ih]

lemma insertAtPos_length (o : Order) (pred : Order → Bool) (q : List Order) :
    (insertAtPos o pred q).length = q.length + 1 := by
  induction q with
  | nil => rfl
  | cons p rest ih =>
    by_cases hp : pred p = true
    · simp [insertAtPos, hp]
    · simp [insertAtPos, hp, ih]

lemma insertAtPos_mem (o x : Order) (pred : Order → Bool) (q : List Order) :
    x ∈ insertAtPos o pred q ↔ x = o ∨ x ∈ q := by
  induction q with
  | nil => simp [insertAtPos]
  | cons p rest ih =>
    by_cases hp : pred p = true
    · simp [insertAtPos, hp]
    · simp [insertAtPos, hp, ih]
      tauto

lemma priceOrd_trans (side : OrderSide) :
    ∀ x y z : Order, priceOrd side x y → priceOrd side y z → priceOrd side x z := by
  cases side <;>
    · intro x y z h1 h2
      simp [priceOrd] at h1 h2 ⊢
      omega

lemma insertAtPos_pairwise (o : Order) (pred : Order → Bool)
    (R : Order → Order → Prop) (q : List Order) (hs : q.Pairwise R)
    (htrans : ∀ x y z : Order, R x y → R y z → R x z)
    (h1 : ∀ p, pred p = true → R o p)
    (h2 : ∀ p, ¬ pred p = true → R p o) :
    (insertAtPos o pred q).Pairwise R := by
  induction q with
  | nil => exact List.pairwise_singleton R o
  | cons p rest ih =>
    obtain ⟨hhead, htail⟩ := List.pairwise_cons.mp hs
    by_cases hp : pred p = true
    · rw [insertAtPos, if_pos hp]
      refine List.pairwise_cons.mpr ⟨?_, hs⟩
      intro x hx
      rcases List.mem_cons.mp hx with hx | hx
      · exact hx ▸ h1 p hp
      · exact htrans o p x (h1 p hp) (hhead x hx)
    · rw [insertAtPos, if_neg hp]
      refine List.pairwise_cons.mpr ⟨?_, ih htail⟩
      intro x hx
      rcases (insertAtPos_mem o x pred rest).mp hx with hx | hx
      · exact hx ▸ h2 p hp
      · exact hhead x hx

lemma insertOrder_sorted (side : OrderSide) (q : List Order) (o : Order)
    (hs : QueueSorted side q) : QueueSorted side (insertOrder side q o) := by
  rw [insertOrder_eq]
  refine insertAtPos_pairwise o (worsePred side o) (priceOrd side) q hs
    (priceOrd_trans side) ?_ ?_
  · intro p hp
    cases side <;>
      · simp [worsePred] at hp
        simp [priceOrd]
        omega
  · intro p hp
    cases side <;>
      · simp [worsePred] at hp
        simp [priceOrd]
        omega

lemma insertOrder_mem (side : OrderSide) (q : List Order) (o x : Order) :
    x ∈ insertOrder side q o ↔ x = o ∨ x ∈ q := by
  rw [insertOrder_eq]
  exact insertAtPos_mem o x (worsePred side o) q

/-- In a sorted queue, every entry past the insertion point is strictly
worse-priced than the inserted order. -/
lemma sorted_dropWhile_worse (side : OrderSide) (o : Order) (q : List Order)
    (hs : QueueSorted side q) :
    ∀ x ∈ q.dropWhile (fun p => !(worsePred side o p)),
      worsePred side o x = true := by
  induction q with
  | nil => intro x hx; simp at hx
  | cons p rest ih =>
    obtain ⟨hhead, htail⟩ := List.pairwise_cons.mp hs
    by_cases hp : worsePred side o p = true
    · rw [List.dropWhile_cons_of_neg (by simp [hp])]
      intro x hx
      rcases List.mem_cons.mp hx with hx | hx
      · exact hx ▸ hp
      · have hord := hhead x hx
        cases side <;>
          · simp [worsePred] at hp ⊢
            simp [priceOrd] at hord
            omega
    · rw [List.dropWhile_cons_of_pos (by simp [hp])]
      exact ih htail

/-! Lemmas about `match_order`. -/

lemma match_order_spec_cancel (s : OrderSide) (q : List Order) (a : Order)
    (k : OrderKind)
    (hcond : k = OrderKind.FillOrKill ∧ (matchWalk s a 0 0 q).active.size ≠ 0) :
    match_order s q a k = ⟨q, a, (matchWalk s a 0 0 q).log, true⟩ := by
  unfold match_order
  rw [if_pos hcond]
  obtain ⟨hpr, hus⟩ := matchWalk_active_fields s a 0 0 q
  have hq : (matchWalk s a 0 0 q).queue = q :=
    matchWalk_queue_of_size_ne s a 0 0 q hcond.2
  simp only [MatchResult.mk.injEq]
  refine ⟨hq, ?_, trivial, trivial⟩
  ext
  · exact hpr
  · rfl
  · exact hus

lemma match_order_spec_commit (s : OrderSide) (q : List Order) (a : Order)
    (k : OrderKind)
    (hcond : ¬(k = OrderKind.FillOrKill ∧
      (matchWalk s a 0 0 q).active.size ≠ 0)) :
    match_order s q a k =
      ⟨(matchWalk s a 0 0 q).retained ++
          (matchWalk s a 0 0 q).queue.drop (matchWalk s a 0 0 q).dropFirst,
        (matchWalk s a 0 0 q).active, (matchWalk s a 0 0 q).log, false⟩ := by
  unfold match_order
  rw [if_neg hcond]

lemma match_order_cancelled_iff (s : OrderSide) (q : List Order) (a : Order)
    (k : OrderKind) :
    (match_order s q a k).cancelled = true ↔
      (k = OrderKind.FillOrKill ∧ (matchWalk s a 0 0 q).active.size ≠ 0) := by
  by_cases hcond : k = OrderKind.FillOrKill ∧
      (matchWalk s a 0 0 q).active.size ≠ 0
  · rw [match_order_spec_cancel s q a k hcond]
    simpa using hcond
  · rw [match_order_spec_commit s q a k hcond]
    simpa using hcond

lemma match_order_key_sublist (s : OrderSide) (q : List Order) (a : Order)
    (k : OrderKind) :
    ((match_order s q a k).queue.map Order.key).Sublist (q.map Order.key) := by
  by_cases hcond : k = OrderKind.FillOrKill ∧
      (matchWalk s a 0 0 q).active.size ≠ 0
  · rw [match_order_spec_cancel s q a k hcond]
  · rw [match_order_spec_commit s q a k hcond]
    have := matchWalk_commit_key_sublist s a 0 0 q (Nat.le_refl 0)
    simpa using this

lemma match_order_pos (s : OrderSide) (q : List Order) (a : Order)
    (k : OrderKind) (hpos : ∀ x ∈ q, 0 < x.size) :
    ∀ x ∈ (match_order s q a k).queue, 0 < x.size := by
  by_cases hcond : k = OrderKind.FillOrKill ∧
      (matchWalk s a 0 0 q).active.size ≠ 0
  · rw [match_order_spec_cancel s q a k hcond]
    exact hpos
  · rw [match_order_spec_commit s q a k hcond]
    have := matchWalk_commit_pos s a 0 0 q (Nat.le_refl 0) hpos
    simpa using this

lemma match_order_active_fields (s : OrderSide) (q : List Order) (a : Order)
    (k : OrderKind) :
    (match_order s q a k).active.price_limit = a.price_limit ∧
      (match_order s q a k).active.user_id = a.user_id := by
  by_cases hcond : k = OrderKind.FillOrKill ∧
      (matchWalk s a 0 0 q).active.size ≠ 0
  · rw [match_order_spec_cancel s q a k hcond]
    exact ⟨rfl, rfl⟩
  · rw [match_order_spec_commit s q a k hcond]
    exact matchWalk_active_fields s a 0 0 q

lemma match_order_log_fulfilled (s : OrderSide) (q : List Order) (a : Order)
    (k : OrderKind) :
    ∀ it ∈ (match_order s q a k).log, it.isFulfilled = true := by
  by_cases hcond : k = OrderKind.FillOrKill ∧
      (matchWalk s a 0 0 q).active.size ≠ 0
  · rw [match_order_spec_cancel s q a k hcond]
    exact matchWalk_log_fulfilled s a 0 0 q
  · rw [match_order_spec_commit s q a k hcond]
    exact matchWalk_log_fulfilled s a 0 0 q

/-- On the commit path, when the aggressor keeps residual size every
surviving queue entry either belongs to the aggressor's user (a
restored skipped order) or fails the price check against it. -/
lemma match_order_residual_users (s : OrderSide) (q : List Order) (a : Order)
    (k : OrderKind) (hs : QueueSorted s q)
    (hc : (match_order s q a k).cancelled = false)
    (hne : (match_order s q a k).active.size ≠ 0) :
    ∀ x ∈ (match_order s q a k).queue,
      x.user_id = a.user_id ∨ price_matches s x a = false := by
  by_cases hcond : k = OrderKind.FillOrKill ∧
      (matchWalk s a 0 0 q).active.size ≠ 0
  · rw [match_order_spec_cancel s q a k hcond] at hc
    simp at hc
  · rw [match_order_spec_commit s q a k hcond] at hne ⊢
    intro x hx
    rcases List.mem_append.mp hx with hx | hx
    · left
      have hret := matchWalk_retained_filter s a 0 0 q (Nat.le_refl 0)
      rw [hret] at hx
      have := (List.mem_filter.mp hx).2
      simpa using this
    · right
      have := matchWalk_tail_no_match s a 0 0 q (Nat.le_refl 0) hs hne x
      simp only [Nat.sub_zero] at this
      exact this hx

lemma match_order_log_nil (s : OrderSide) (q : List Order) (a : Order)
    (k : OrderKind) (hc : (match_order s q a k).cancelled = false)
    (hl : (match_order s q a k).log = []) :
    (match_order s q a k).queue = q ∧ (match_order s q a k).active = a := by
  by_cases hcond : k = OrderKind.FillOrKill ∧
      (matchWalk s a 0 0 q).active.size ≠ 0
  · rw [match_order_spec_cancel s q a k hcond] at hc
    simp at hc
  · rw [match_order_spec_commit s q a k hcond] at hl ⊢
    obtain ⟨h1, h2, h3⟩ := matchWalk_log_nil s a 0 0 q (Nat.le_refl 0)
      (by simpa using hl)
    refine ⟨?_, h1⟩
    simp only [Nat.sub_zero] at h3
    rw [h2, h3]

lemma match_order_commit_sum (s : OrderSide) (q : List Order) (a : Order)
    (k : OrderKind) (hc : (match_order s q a k).cancelled = false) :
    sizeSum q =
      sizeSum (match_order s q a k).queue +
        fulfilledTotal (match_order s q a k).log := by
  by_cases hcond : k = OrderKind.FillOrKill ∧
      (matchWalk s a 0 0 q).active.size ≠ 0
  · rw [match_order_spec_cancel s q a k hcond] at hc
    simp at hc
  · rw [match_order_spec_commit s q a k hcond]
    have := matchWalk_commit_sum s a 0 0 q (Nat.le_refl 0)
    simpa using this

lemma match_order_active_size (s : OrderSide) (q : List Order) (a : Order)
    (k : OrderKind) (hc : (match_order s q a k).cancelled = false) :
    (match_order s q a k).active.size +
      fulfilledTotal (match_order s q a k).log = a.size := by
  by_cases hcond : k = OrderKind.FillOrKill ∧
      (matchWalk s a 0 0 q).active.size ≠ 0
  · rw [match_order_spec_cancel s q a k hcond] at hc
    simp at hc
  · rw [match_order_spec_commit s q a k hcond]
    exact matchWalk_active_size s a 0 0 q

/-! Book invariant and its preservation. -/

/-- The sort relation seen through the `(price, user)` projection. -/
def keyOrd (side : OrderSide) (x y : Nat × Nat) : Prop :=
  match side with
  | OrderSide.Buy => y.1 ≤ x.1
  | OrderSide.Sell => x.1 ≤ y.1

lemma pairwise_key_iff (side : OrderSide) (q : List Order) :
    (q.map Order.key).Pairwise (keyOrd side) ↔ QueueSorted side q := by
  rw [List.pairwise_map]
  unfold QueueSorted
  constructor <;>
    · intro h
      refine h.imp ?_
      intro x y hxy
      cases side <;> simpa [keyOrd, priceOrd, Order.key] using hxy

lemma queueSorted_of_key_sublist (side : OrderSide) (q q' : List Order)
    (hsub : (q'.map Order.key).Sublist (q.map Order.key))
    (hs : QueueSorted side q) : QueueSorted side q' :=
  (pairwise_key_iff side q').mp
    (((pairwise_key_iff side q).mpr hs).sublist hsub)

lemma key_mem_of_sublist (q q' : List Order) (x : Order)
    (hsub : (q'.map Order.key).Sublist (q.map Order.key)) (hx : x ∈ q') :
    ∃ y ∈ q, y.price_limit = x.price_limit ∧ y.user_id = x.user_id := by
  have : Order.key x ∈ q.map Order.key :=
    hsub.mem (List.mem_map_of_mem Order.key hx)
  obtain ⟨y, hy, hkey⟩ := List.mem_map.mp this
  exact ⟨y, hy, congrArg Prod.fst hkey, congrArg Prod.snd hkey⟩

/-- Replacing the ask queue by a key-sublist with positive sizes keeps
the invariant. -/
lemma bookInv_set_ask (b : OrderBook) (q' : List Order)
    (hsub : (q'.map Order.key).Sublist (b.ask.map Order.key))
    (hpos : ∀ x ∈ q', 0 < x.size) (hinv : BookInv b) :
    BookInv ⟨b.bid, q'⟩ := by
  obtain ⟨hsb, hsa, hpb, hpa, hcr⟩ := hinv
  refine ⟨hsb, queueSorted_of_key_sublist _ _ _ hsub hsa, hpb, hpos, ?_⟩
  intro x hx y hy hle
  obtain ⟨y0, hy0, hpr, hus⟩ := key_mem_of_sublist _ _ y hsub hy
  rw [← hus]
  exact hcr x hx y0 hy0 (hpr ▸ hle)

/-- Replacing the bid queue by a key-sublist with positive sizes keeps
the invariant. -/
lemma bookInv_set_bid (b : OrderBook) (q' : List Order)
    (hsub : (q'.map Order.key).Sublist (b.bid.map Order.key))
    (hpos : ∀ x ∈ q', 0 < x.size) (hinv : BookInv b) :
    BookInv ⟨q', b.ask⟩ := by
  obtain ⟨hsb, hsa, hpb, hpa, hcr⟩ := hinv
  refine ⟨queueSorted_of_key_sublist _ _ _ hsub hsb, hsa, hpos, hpa, ?_⟩
  intro x hx y hy hle
  obtain ⟨x0, hx0, hpr, hus⟩ := key_mem_of_sublist _ _ x hsub hx
  rw [← hus]
  exact hcr x0 hx0 y hy (hpr ▸ hle)

/-- Inserting a Limit residual into the bid queue keeps the invariant
when every surviving ask either shares the residual's user or is
priced strictly above it. -/
lemma bookInv_insert_bid (bid ask : List Order) (act : Order)
    (hinv : BookInv ⟨bid, ask⟩) (hpos : 0 < act.size)
    (hcross : ∀ y ∈ ask,
      y.user_id = act.user_id ∨ act.price_limit < y.price_limit) :
    BookInv ⟨insertOrder OrderSide.Buy bid act, ask⟩ := by
  obtain ⟨hsb, hsa, hpb, hpa, hcr⟩ := hinv
  refine ⟨insertOrder_sorted _ _ _ hsb, hsa, ?_, hpa, ?_⟩
  · intro x hx
    replace hx : x ∈ insertOrder OrderSide.Buy bid act := hx
    rcases (insertOrder_mem _ _ _ _).mp hx with hx | hx
    · exact hx ▸ hpos
    · exact hpb x hx
  · intro x hx y hy hle
    replace hx : x ∈ insertOrder OrderSide.Buy bid act := hx
    rcases (insertOrder_mem _ _ _ _).mp hx with hx | hx
    · subst hx
      rcases hcross y hy with h | h
      · exact h.symm
      · omega
    · exact hcr x hx y hy hle

/-- Inserting a Limit residual into the ask queue keeps the invariant
when every surviving bid either shares the residual's user or is
priced strictly below it. -/
lemma bookInv_insert_ask (bid ask : List Order) (act : Order)
    (hinv : BookInv ⟨bid, ask⟩) (hpos : 0 < act.size)
    (hcross : ∀ x ∈ bid,
      x.user_id = act.user_id ∨ x.price_limit < act.price_limit) :
    BookInv ⟨bid, insertOrder OrderSide.Sell ask act⟩ := by
  obtain ⟨hsb, hsa, hpb, hpa, hcr⟩ := hinv
  refine ⟨hsb, insertOrder_sorted _ _ _ hsa, hpb, ?_, ?_⟩
  · intro y hy
    replace hy : y ∈ insertOrder OrderSide.Sell ask act := hy
    rcases (insertOrder_mem _ _ _ _).mp hy with hy | hy
    · exact hy ▸ hpos
    · exact hpa y hy
  · intro x hx y hy hle
    replace hy : y ∈ insertOrder OrderSide.Sell ask act := hy
    rcases (insertOrder_mem _ _ _ _).mp hy with hy | hy
    · subst hy
      rcases hcross x hx with h | h
      · exact h
      · omega
    · exact hcr x hx y hy hle

/-- Book component of `execute_order` for a Buy incoming order,
condensed: the bid queue changes only for a Limit residual. -/
lemma execute_order_buy_book (b : OrderBook) (opl osz ou : Nat)
    (k : OrderKind) :
    (execute_order b ⟨opl, osz, ou, k, OrderSide.Buy⟩).1 =
      if 0 < (match_order OrderSide.Sell b.ask ⟨opl, osz, ou⟩ k).active.size ∧
          k = OrderKind.Limit then
        ⟨insertOrder OrderSide.Buy b.bid
            (match_order OrderSide.Sell b.ask ⟨opl, osz, ou⟩ k).active,
          (match_order OrderSide.Sell b.ask ⟨opl, osz, ou⟩ k).queue⟩
      else ⟨b.bid, (match_order OrderSide.Sell b.ask ⟨opl, osz, ou⟩ k).queue⟩ := by
  dsimp only [execute_order]
  by_cases hz : 0 < (match_order OrderSide.Sell b.ask ⟨opl, osz, ou⟩ k).active.size
  · cases k <;> simp [hz]
  · cases k <;> simp [hz]

/-- Book component of `execute_order` for a Sell incoming order. -/
lemma execute_order_sell_book (b : OrderBook) (opl osz ou : Nat)
    (k : OrderKind) :
    (execute_order b ⟨opl, osz, ou, k, OrderSide.Sell⟩).1 =
      if 0 < (match_order OrderSide.Buy b.bid ⟨opl, osz, ou⟩ k).active.size ∧
          k = OrderKind.Limit then
        ⟨(match_order OrderSide.Buy b.bid ⟨opl, osz, ou⟩ k).queue,
          insertOrder OrderSide.Sell b.ask
            (match_order OrderSide.Buy b.bid ⟨opl, osz, ou⟩ k).active⟩
      else ⟨(match_order OrderSide.Buy b.bid ⟨opl, osz, ou⟩ k).queue, b.ask⟩ := by
  dsimp only [execute_order]
  by_cases hz : 0 < (match_order OrderSide.Buy b.bid ⟨opl, osz, ou⟩ k).active.size
  · cases k <;> simp [hz]
  · cases k <;> simp [hz]

/-- Log component of `execute_order` for a Buy incoming order. -/
lemma execute_order_buy_log (b : OrderBook) (opl osz ou : Nat)
    (k : OrderKind) :
    (execute_order b ⟨opl, osz, ou, k, OrderSide.Buy⟩).2 =
      (if (match_order OrderSide.Sell b.ask ⟨opl, osz, ou⟩ k).cancelled then []
        else (match_order OrderSide.Sell b.ask ⟨opl, osz, ou⟩ k).log) ++
      (if 0 < (match_order OrderSide.Sell b.ask ⟨opl, osz, ou⟩ k).active.size then
        (if k = OrderKind.Limit then
          [LogItem.Enqueued
            (match_order OrderSide.Sell b.ask ⟨opl, osz, ou⟩ k).active.size]
         else
          [LogItem.Cancelled
            (match_order OrderSide.Sell b.ask ⟨opl, osz, ou⟩ k).active.size])
       else []) := by
  dsimp only [execute_order]
  by_cases hz : 0 < (match_order OrderSide.Sell b.ask ⟨opl, osz, ou⟩ k).active.size
  · cases k <;> simp [hz]
  · cases k <;> simp [hz]

/-- Log component of `execute_order` for a Sell incoming order. -/
lemma execute_order_sell_log (b : OrderBook) (opl osz ou : Nat)
    (k : OrderKind) :
    (execute_order b ⟨opl, osz, ou, k, OrderSide.Sell⟩).2 =
      (if (match_order OrderSide.Buy b.bid ⟨opl, osz, ou⟩ k).cancelled then []
        else (match_order OrderSide.Buy b.bid ⟨opl, osz, ou⟩ k).log) ++
      (if 0 < (match_order OrderSide.Buy b.bid ⟨opl, osz, ou⟩ k).active.size then
        (if k = OrderKind.Limit then
          [LogItem.Enqueued
            (match_order OrderSide.Buy b.bid ⟨opl, osz, ou⟩ k).active.size]
         else
          [LogItem.Cancelled
            (match_order OrderSide.Buy b.bid ⟨opl, osz, ou⟩ k).active.size])
       else []) := by
  dsimp only [execute_order]
  by_cases hz : 0 < (match_order OrderSide.Buy b.bid ⟨opl, osz, ou⟩ k).active.size
  · cases k <;> simp [hz]
  · cases k <;> simp [hz]

lemma cancelled_false_of_not_fok (s : OrderSide) (q : List Order) (a : Order)
    (k : OrderKind) (hk : k ≠ OrderKind.FillOrKill) :
    (match_order s q a k).cancelled = false := by
  by_cases hc : (match_order s q a k).cancelled = true
  · exact absurd ((match_order_cancelled_iff s q a k).mp hc).1 hk
  · simpa using hc

/-- Invariant preservation: every `execute_order` call maps a book
satisfying `BookInv` to a book satisfying `BookInv`. -/
lemma execute_order_inv (b : OrderBook) (o : IncomingOrder)
    (hinv : BookInv b) : BookInv (execute_order b o).1 := by
  obtain ⟨opl, osz, ou, ok, oside⟩ := o
  cases oside
  case Buy =>
    rw [execute_order_buy_book]
    have hsub := match_order_key_sublist OrderSide.Sell b.ask ⟨opl, osz, ou⟩ ok
    have hpos := match_order_pos OrderSide.Sell b.ask ⟨opl, osz, ou⟩ ok
      hinv.2.2.2.1
    have hbase : BookInv ⟨b.bid,
        (match_order OrderSide.Sell b.ask ⟨opl, osz, ou⟩ ok).queue⟩ :=
      bookInv_set_ask b _ hsub hpos hinv
    by_cases hl : 0 < (match_order OrderSide.Sell b.ask
        ⟨opl, osz, ou⟩ ok).active.size ∧ ok = OrderKind.Limit
    · rw [if_pos hl]
      obtain ⟨hflds1, hflds2⟩ :=
        match_order_active_fields OrderSide.Sell b.ask ⟨opl, osz, ou⟩ ok
      refine bookInv_insert_bid b.bid _ _ hbase hl.1 ?_
      intro y hy
      have hc : (match_order OrderSide.Sell b.ask
          ⟨opl, osz, ou⟩ ok).cancelled = false :=
        cancelled_false_of_not_fok _ _ _ _ (by rw [hl.2]; intro h; cases h)
      have := match_order_residual_users OrderSide.Sell b.ask ⟨opl, osz, ou⟩ ok
        hinv.2.1 hc (by omega) y hy
      rcases this with h | h
      · left
        rw [h, hflds2]
      · right
        simp [price_matches] at h
        rw [hflds1]
        exact h
    · rw [if_neg hl]
      exact hbase
  case Sell =>
    rw [execute_order_sell_book]
    have hsub := match_order_key_sublist OrderSide.Buy b.bid ⟨opl, osz, ou⟩ ok
    have hpos := match_order_pos OrderSide.Buy b.bid ⟨opl, osz, ou⟩ ok
      hinv.2.2.1
    have hbase : BookInv ⟨(match_order OrderSide.Buy b.bid
        ⟨opl, osz, ou⟩ ok).queue, b.ask⟩ :=
      bookInv_set_bid b _ hsub hpos hinv
    by_cases hl : 0 < (match_order OrderSide.Buy b.bid
        ⟨opl, osz, ou⟩ ok).active.size ∧ ok = OrderKind.Limit
    · rw [if_pos hl]
      obtain ⟨hflds1, hflds2⟩ :=
        match_order_active_fields OrderSide.Buy b.bid ⟨opl, osz, ou⟩ ok
      refine bookInv_insert_ask _ b.ask _ hbase hl.1 ?_
      intro x hx
      have hc : (match_order OrderSide.Buy b.bid
          ⟨opl, osz, ou⟩ ok).cancelled = false :=
        cancelled_false_of_not_fok _ _ _ _ (by rw [hl.2]; intro h; cases h)
      have := match_order_residual_users OrderSide.Buy b.bid ⟨opl, osz, ou⟩ ok
        hinv.1 hc (by omega) x hx
      rcases this with h | h
      · left
        rw [h, hflds2]
      · right
        simp [price_matches] at h
        rw [hflds1]
        exact h
    · rw [if_neg hl]
      exact hbase

lemma bookInv_new : BookInv OrderBook.new := by
  refine ⟨List.Pairwise.nil, List.Pairwise.nil, ?_, ?_, ?_⟩ <;>
    · intro x hx
      simp [OrderBook.new] at hx

lemma foldl_execute_inv (os : List IncomingOrder) (b : OrderBook)
    (hinv : BookInv b) :
    BookInv (os.foldl (fun b o => (execute_order b o).1) b) := by
  induction os generalizing b with
  | nil => exact hinv
  | cons o os ih =>
    exact ih (execute_order b o).1 (execute_order_inv b o hinv)

/-- Every book reachable from the empty book satisfies the invariant. -/
lemma from_vec_inv (os : List IncomingOrder) :
    BookInv (OrderBook.from_vec os) :=
  foldl_execute_inv os OrderBook.new bookInv_new

instance priceOrdDecidable (side : OrderSide) (x y : Order) :
    Decidable (priceOrd side x y) :=
  match side with
  | OrderSide.Buy => inferInstanceAs (Decidable (y.price_limit ≤ x.price_limit))
  | OrderSide.Sell => inferInstanceAs (Decidable (x.price_limit ≤ y.price_limit))

/-- Orders of the C2 counterexample: a user crossing their own resting
ask; self-trade avoidance skips the match and both orders rest. -/
def c2cexOrders : List IncomingOrder :=
  [⟨100, 1, 5, OrderKind.Limit, OrderSide.Sell⟩,
   ⟨110, 1, 5, OrderKind.Limit, OrderSide.Buy⟩]

/-- C2: the non-crossing claim is FALSE as stated: after replaying
`c2cexOrders` from the empty book, both queues are non-empty and the
best bid (price 110) is not below the best ask (price 100) — the two
crossed orders belong to the same user and were never matched. -/
theorem spec_c2_non_crossing_counterexample :
    (OrderBook.from_vec c2cexOrders).bid.head? = some ⟨110, 1, 5⟩ ∧
    (OrderBook.from_vec c2cexOrders).ask.head? = some ⟨100, 1, 5⟩ ∧
    ¬ ((110 : Nat) < 100) := by decide

/-- C2 (amended): after every `execute_order` call on a book reachable
from the empty book, if both queues are non-empty AND the two front
orders belong to different users, then
`bid[0].price_limit < ask[0].price_limit`. -/
theorem spec_c2_non_crossing_amended (os : List IncomingOrder) (x y : Order)
    (hb : (OrderBook.from_vec os).bid.head? = some x)
    (ha : (OrderBook.from_vec os).ask.head? = some y)
    (hu : x.user_id ≠ y.user_id) :
    x.price_limit < y.price_limit := by
  have hinv := from_vec_inv os
  have hxmem : x ∈ (OrderBook.from_vec os).bid :=
    List.mem_of_mem_head? (by rw [hb]; rfl)
  have hymem : y ∈ (OrderBook.from_vec os).ask :=
    List.mem_of_mem_head? (by rw [ha]; rfl)
  by_contra hlt
  exact hu (hinv.2.2.2.2 x hxmem y hymem (by omega))

/-- Witness for the amended C2 at a concrete crossed-free book. -/
theorem spec_c2_non_crossing_amended_witness :
    (Order.price_limit ⟨90, 1, 1⟩) < (Order.price_limit ⟨100, 1, 2⟩) :=
  spec_c2_non_crossing_amended
    [⟨90, 1, 1, OrderKind.Limit, OrderSide.Buy⟩,
     ⟨100, 1, 2, OrderKind.Limit, OrderSide.Sell⟩]
    ⟨90, 1, 1⟩ ⟨100, 1, 2⟩ (by decide) (by decide) (by decide)

/-- C9: after every `execute_order` sequence from the empty book, the
bid queue is weakly price-descending and the ask queue weakly
price-ascending, at every adjacent index pair. -/
theorem spec_c9_queue_ordering (os : List IncomingOrder) :
    (∀ i : Nat, ∀ h : i + 1 < (OrderBook.from_vec os).bid.length,
      ((OrderBook.from_vec os).bid.get ⟨i + 1, h⟩).price_limit ≤
        ((OrderBook.from_vec os).bid.get
          ⟨i, Nat.lt_of_succ_lt h⟩).price_limit) ∧
    (∀ i : Nat, ∀ h : i + 1 < (OrderBook.from_vec os).ask.length,
      ((OrderBook.from_vec os).ask.get
          ⟨i, Nat.lt_of_succ_lt h⟩).price_limit ≤
        ((OrderBook.from_vec os).ask.get ⟨i + 1, h⟩).price_limit) := by
  have hinv := from_vec_inv os
  constructor
  · intro i h
    have hchain := (hinv.1).chain'
    have := List.chain'_iff_get.mp hchain i (by omega)
    simpa [priceOrd] using this
  · intro i h
    have hchain := (hinv.2.1).chain'
    have := List.chain'_iff_get.mp hchain i (by omega)
    simpa [priceOrd] using this

/-- Witness for C9 on a two-element bid queue. -/
theorem spec_c9_queue_ordering_witness :
    ((OrderBook.from_vec
        [⟨100, 1, 1, OrderKind.Limit, OrderSide.Buy⟩,
         ⟨90, 1, 2, OrderKind.Limit, OrderSide.Buy⟩]).bid.get
      ⟨1, by decide⟩).price_limit ≤
      ((OrderBook.from_vec
        [⟨100, 1, 1, OrderKind.Limit, OrderSide.Buy⟩,
         ⟨90, 1, 2, OrderKind.Limit, OrderSide.Buy⟩]).bid.get
      ⟨0, by decide⟩).price_limit :=
  (spec_c9_queue_ordering
    [⟨100, 1, 1, OrderKind.Limit, OrderSide.Buy⟩,
     ⟨90, 1, 2, OrderKind.Limit, OrderSide.Buy⟩]).1 0 (by decide)

/-- C6: insertion into a sorted queue lands at the first position whose
price is strictly worse (appending at the tail when none is), grows the
length by one, preserves the ordering invariant, and every entry past
the insertion point is strictly worse-priced, so the new order lands
after all equal-priced resting orders. -/
theorem spec_c6_insert_spec (side : OrderSide) (q : List Order) (o : Order)
    (hs : QueueSorted side q) :
    insertOrder side q o =
      q.takeWhile (fun p => !(worsePred side o p)) ++
        o :: q.dropWhile (fun p => !(worsePred side o p)) ∧
    (insertOrder side q o).length = q.length + 1 ∧
    QueueSorted side (insertOrder side q o) ∧
    (∀ x ∈ q.dropWhile (fun p => !(worsePred side o p)),
      worsePred side o x = true) := by
  refine ⟨?_, ?_, insertOrder_sorted side q o hs,
    sorted_dropWhile_worse side o q hs⟩
  · rw [insertOrder_eq]
    exact insertAtPos_eq_takeWhile o (worsePred side o) q
  · rw [insertOrder_eq]
    exact insertAtPos_length o (worsePred side o) q

instance queueSortedDecidable (side : OrderSide) (q : List Order) :
    Decidable (QueueSorted side q) :=
  inferInstanceAs (Decidable (q.Pairwise (priceOrd side)))

/-- Witness for C6: inserting a tied-price buy order into a sorted
two-element bid queue. -/
theorem spec_c6_insert_spec_witness :
    QueueSorted OrderSide.Buy [⟨100, 1, 1⟩, ⟨90, 1, 2⟩] ∧
      (insertOrder OrderSide.Buy [⟨100, 1, 1⟩, ⟨90, 1, 2⟩] ⟨100, 2, 3⟩ =
        ([⟨100, 1, 1⟩, ⟨90, 1, 2⟩] : List Order).takeWhile
            (fun p => !(worsePred OrderSide.Buy ⟨100, 2, 3⟩ p)) ++
          ⟨100, 2, 3⟩ ::
            ([⟨100, 1, 1⟩, ⟨90, 1, 2⟩] : List Order).dropWhile
              (fun p => !(worsePred OrderSide.Buy ⟨100, 2, 3⟩ p)) ∧
        (insertOrder OrderSide.Buy
            [⟨100, 1, 1⟩, ⟨90, 1, 2⟩] ⟨100, 2, 3⟩).length =
          ([⟨100, 1, 1⟩, ⟨90, 1, 2⟩] : List Order).length + 1 ∧
        QueueSorted OrderSide.Buy
          (insertOrder OrderSide.Buy [⟨100, 1, 1⟩, ⟨90, 1, 2⟩] ⟨100, 2, 3⟩) ∧
        (∀ x ∈ ([⟨100, 1, 1⟩, ⟨90, 1, 2⟩] : List Order).dropWhile
            (fun p => !(worsePred OrderSide.Buy ⟨100, 2, 3⟩ p)),
          worsePred OrderSide.Buy ⟨100, 2, 3⟩ x = true)) :=
  ⟨by decide, spec_c6_insert_spec OrderSide.Buy [⟨100, 1, 1⟩, ⟨90, 1, 2⟩]
    ⟨100, 2, 3⟩ (by decide)⟩

/-- C7 (code bug): on the queue `[⟨100,1,1⟩, ⟨90,2,2⟩]` (front first),
`SimpleVecQueue::drop_first_n 1` keeps the FIRST element and removes
the LAST one, while `VecDequeQueue` and `ReversedVec` (read through its
back-to-front storage) both remove the first element as the queue
contract demands. -/
theorem spec_c7_drop_first_n_divergence :
    SimpleVecQueue.drop_first_n 1 [⟨100, 1, 1⟩, ⟨90, 2, 2⟩] =
      [(⟨100, 1, 1⟩ : Order)] ∧
    VecDequeQueue.drop_first_n 1 [⟨100, 1, 1⟩, ⟨90, 2, 2⟩] =
      [(⟨90, 2, 2⟩ : Order)] ∧
    ReversedVec.toQueue
      (ReversedVec.drop_first_n 1 [⟨90, 2, 2⟩, ⟨100, 1, 1⟩]) =
      [(⟨90, 2, 2⟩ : Order)] ∧
    [(⟨100, 1, 1⟩ : Order)] ≠ [(⟨90, 2, 2⟩ : Order)] := by decide

/-- C4: whenever the matching walk commits, the resulting queue starts
with exactly the same-user entries of a dropped front segment of the
input queue — unchanged, in their original relative order — followed by
the surviving suffix, which is the corresponding input suffix either
intact or with only its first entry (the partially consumed passive
order) reduced in size. -/
theorem spec_c4_skipped_restoration (side : OrderSide) (q : List Order)
    (a : Order) (k : OrderKind)
    (hc : (match_order side q a k).cancelled = false) :
    ∃ n suffix, n ≤ q.length ∧
      (match_order side q a k).queue =
        ((q.take n).filter (fun p => p.user_id == a.user_id)) ++ suffix ∧
      (suffix = q.drop n ∨
        ∃ p rest' t, q.drop n = p :: rest' ∧ 0 < t ∧ t < p.size ∧
          suffix = { p with size := p.size - t } :: rest') := by
  by_cases hcond : k = OrderKind.FillOrKill ∧
      (matchWalk side a 0 0 q).active.size ≠ 0
  · rw [match_order_spec_cancel side q a k hcond] at hc
    simp at hc
  · rw [match_order_spec_commit side q a k hcond]
    refine ⟨(matchWalk side a 0 0 q).dropFirst,
      (matchWalk side a 0 0 q).queue.drop
        (matchWalk side a 0 0 q).dropFirst, ?_, ?_, ?_⟩
    · simpa using matchWalk_dropFirst_le side a 0 0 q (Nat.le_refl 0)
    · have := matchWalk_retained_filter side a 0 0 q (Nat.le_refl 0)
      simp only [Nat.sub_zero] at this
      rw [← this]
    · have := matchWalk_queue_drop_shape side a 0 0 q (Nat.le_refl 0)
      simpa using this

/-- Witness for C4: a committing Limit sell against a bid queue holding
two same-user orders among five. -/
theorem spec_c4_skipped_restoration_witness :
    ((match_order OrderSide.Buy
        [⟨103, 1, 3⟩, ⟨102, 1, 0⟩, ⟨102, 1, 2⟩, ⟨101, 1, 1⟩, ⟨100, 1, 0⟩]
        ⟨90, 5, 0⟩ OrderKind.Limit).cancelled = false) ∧
    (∃ n suffix,
      n ≤ ([⟨103, 1, 3⟩, ⟨102, 1, 0⟩, ⟨102, 1, 2⟩, ⟨101, 1, 1⟩,
        ⟨100, 1, 0⟩] : List Order).length ∧
      (match_order OrderSide.Buy
          [⟨103, 1, 3⟩, ⟨102, 1, 0⟩, ⟨102, 1, 2⟩, ⟨101, 1, 1⟩, ⟨100, 1, 0⟩]
          ⟨90, 5, 0⟩ OrderKind.Limit).queue =
        ((([⟨103, 1, 3⟩, ⟨102, 1, 0⟩, ⟨102, 1, 2⟩, ⟨101, 1, 1⟩,
          ⟨100, 1, 0⟩] : List Order).take n).filter
            (fun p => p.user_id == (⟨90, 5, 0⟩ : Order).user_id)) ++ suffix ∧
      (suffix = ([⟨103, 1, 3⟩, ⟨102, 1, 0⟩, ⟨102, 1, 2⟩, ⟨101, 1, 1⟩,
          ⟨100, 1, 0⟩] : List Order).drop n ∨
        ∃ p rest' t,
          ([⟨103, 1, 3⟩, ⟨102, 1, 0⟩, ⟨102, 1, 2⟩, ⟨101, 1, 1⟩,
            ⟨100, 1, 0⟩] : List Order).drop n = p :: rest' ∧
          0 < t ∧ t < p.size ∧
          suffix = { p with size := p.size - t } :: rest')) :=
  ⟨by decide, spec_c4_skipped_restoration OrderSide.Buy
    [⟨103, 1, 3⟩, ⟨102, 1, 0⟩, ⟨102, 1, 2⟩, ⟨101, 1, 1⟩, ⟨100, 1, 0⟩]
    ⟨90, 5, 0⟩ OrderKind.Limit (by decide)⟩

lemma fulfilledTotal_append (l₁ l₂ : List LogItem) :
    fulfilledTotal (l₁ ++ l₂) = fulfilledTotal l₁ + fulfilledTotal l₂ := by
  simp [fulfilledTotal]

lemma leftoverTotal_append (l₁ l₂ : List LogItem) :
    leftoverTotal (l₁ ++ l₂) = leftoverTotal l₁ + leftoverTotal l₂ := by
  simp [leftoverTotal]

lemma leftoverTotal_of_all_fulfilled (l : List LogItem)
    (h : ∀ it ∈ l, it.isFulfilled = true) : leftoverTotal l = 0 := by
  induction l with
  | nil => rfl
  | cons it rest ih =>
    have hit := h it (List.mem_cons_self it rest)
    have hrest := ih fun x hx => h x (List.mem_cons_of_mem it hx)
    cases it <;> simp [LogItem.isFulfilled] at hit ⊢
    all_goals simp [leftoverTotal] at hrest ⊢
    all_goals omega

lemma nil_of_all_fulfilled_and_not (l : List LogItem)
    (h1 : ∀ it ∈ l, it.isFulfilled = true)
    (h2 : ∀ it ∈ l, it.isFulfilled = false) : l = [] := by
  cases l with
  | nil => rfl
  | cons it rest =>
    have := h1 it (List.mem_cons_self it rest)
    have := h2 it (List.mem_cons_self it rest)
    simp_all

/-- A failed-or-empty FoK match leaves the queue untouched: if either
the logger was cancelled or the walk produced no log, the queue equals
the input. -/
lemma match_order_fok_queue (s : OrderSide) (q : List Order) (a : Order)
    (hf : (match_order s q a OrderKind.FillOrKill).cancelled = false →
      (match_order s q a OrderKind.FillOrKill).log = []) :
    (match_order s q a OrderKind.FillOrKill).queue = q := by
  by_cases hc : (match_order s q a OrderKind.FillOrKill).cancelled = true
  · rw [match_order_spec_cancel s q a OrderKind.FillOrKill
      ((match_order_cancelled_iff s q a OrderKind.FillOrKill).mp hc)]
  · have hcf : (match_order s q a OrderKind.FillOrKill).cancelled = false := by
      simpa using hc
    exact (match_order_log_nil s q a OrderKind.FillOrKill hcf (hf hcf)).1

/-- C1 (FoK atomicity): if an `execute_order` call with a `FillOrKill`
order emits no `Fulfilled` item in its final per-call log, the book —
both queues, every resting order included — equals its pre-call state. -/
theorem spec_c1_fok_atomicity (b : OrderBook) (o : IncomingOrder)
    (hk : o.kind = OrderKind.FillOrKill)
    (hf : ∀ it ∈ (execute_order b o).2, it.isFulfilled = false) :
    (execute_order b o).1 = b := by
  obtain ⟨opl, osz, ou, ok, oside⟩ := o
  simp only at hk
  subst hk
  cases oside
  case Buy =>
    rw [execute_order_buy_book] at *
    rw [execute_order_buy_log] at hf
    rw [if_neg (fun hcon => by cases hcon.2)]
    have hq : (match_order OrderSide.Sell b.ask ⟨opl, osz, ou⟩
        OrderKind.FillOrKill).queue = b.ask := by
      apply match_order_fok_queue
      intro hcf
      apply nil_of_all_fulfilled_and_not _
        (match_order_log_fulfilled OrderSide.Sell b.ask ⟨opl, osz, ou⟩
          OrderKind.FillOrKill)
      intro it hit
      apply hf
      rw [if_neg (by simp [hcf])]
      exact List.mem_append_left _ hit
    rw [hq]
  case Sell =>
    rw [execute_order_sell_book] at *
    rw [execute_order_sell_log] at hf
    rw [if_neg (fun hcon => by cases hcon.2)]
    have hq : (match_order OrderSide.Buy b.bid ⟨opl, osz, ou⟩
        OrderKind.FillOrKill).queue = b.bid := by
      apply match_order_fok_queue
      intro hcf
      apply nil_of_all_fulfilled_and_not _
        (match_order_log_fulfilled OrderSide.Buy b.bid ⟨opl, osz, ou⟩
          OrderKind.FillOrKill)
      intro it hit
      apply hf
      rw [if_neg (by simp [hcf])]
      exact List.mem_append_left _ hit
    rw [hq]

/-- Witness for C1: a partially fillable FoK sell against one resting
bid of a different user fails and leaves the book intact. -/
theorem spec_c1_fok_atomicity_witness :
    (∀ it ∈ (execute_order ⟨[⟨100, 1, 1⟩], []⟩
        ⟨90, 5, 0, OrderKind.FillOrKill, OrderSide.Sell⟩).2,
      it.isFulfilled = false) ∧
    (execute_order ⟨[⟨100, 1, 1⟩], []⟩
        ⟨90, 5, 0, OrderKind.FillOrKill, OrderSide.Sell⟩).1 =
      ⟨[⟨100, 1, 1⟩], []⟩ :=
  ⟨by decide, spec_c1_fok_atomicity ⟨[⟨100, 1, 1⟩], []⟩
    ⟨90, 5, 0, OrderKind.FillOrKill, OrderSide.Sell⟩ rfl (by decide)⟩

/-- C8: whenever an `execute_order` call with a `FillOrKill` order emits
a `Cancelled` item, the per-call log is exactly one `Cancelled` item
carrying the order's ORIGINAL submitted size (the matcher had already
rolled the active size back before the emission), and nothing is
inserted into either queue: the book is unchanged. -/
theorem spec_c8_fok_cancelled_item (b : OrderBook) (o : IncomingOrder)
    (s : Nat) (hk : o.kind = OrderKind.FillOrKill)
    (hmem : LogItem.Cancelled s ∈ (execute_order b o).2) :
    (execute_order b o).2 = [LogItem.Cancelled o.size] ∧
      (execute_order b o).1 = b := by
  obtain ⟨opl, osz, ou, ok, oside⟩ := o
  simp only at hk
  subst hk
  cases oside
  case Buy =>
    rw [execute_order_buy_book, if_neg (fun hcon => by cases hcon.2)]
    rw [execute_order_buy_log] at hmem ⊢
    by_cases hc : (match_order OrderSide.Sell b.ask ⟨opl, osz, ou⟩
        OrderKind.FillOrKill).cancelled = true
    · have hcond := (match_order_cancelled_iff OrderSide.Sell b.ask
        ⟨opl, osz, ou⟩ OrderKind.FillOrKill).mp hc
      have hwalk := matchWalk_active_size OrderSide.Sell ⟨opl, osz, ou⟩ 0 0 b.ask
      rw [match_order_spec_cancel OrderSide.Sell b.ask ⟨opl, osz, ou⟩
        OrderKind.FillOrKill hcond]
      have hosz : 0 < osz := by
        have h2 := hcond.2
        dsimp only at hwalk
        omega
      refine ⟨?_, rfl⟩
      simp [hosz]
    · have hcf : (match_order OrderSide.Sell b.ask ⟨opl, osz, ou⟩
          OrderKind.FillOrKill).cancelled = false := by simpa using hc
      exfalso
      have hiff := match_order_cancelled_iff OrderSide.Sell b.ask
        ⟨opl, osz, ou⟩ OrderKind.FillOrKill
      have hcond2 : ¬ (OrderKind.FillOrKill = OrderKind.FillOrKill ∧
          (matchWalk OrderSide.Sell ⟨opl, osz, ou⟩ 0 0 b.ask).active.size ≠ 0) := by
        rw [← hiff, hcf]
        simp
      have hzero : (match_order OrderSide.Sell b.ask ⟨opl, osz, ou⟩
          OrderKind.FillOrKill).active.size = 0 := by
        rw [match_order_spec_commit OrderSide.Sell b.ask ⟨opl, osz, ou⟩
          OrderKind.FillOrKill hcond2]
        dsimp only
        by_contra hne
        exact hcond2 ⟨rfl, hne⟩
      simp only [hcf, hzero, Bool.false_eq_true, if_false, Nat.lt_irrefl,
        List.append_nil] at hmem
      have := match_order_log_fulfilled OrderSide.Sell b.ask ⟨opl, osz, ou⟩
        OrderKind.FillOrKill _ hmem
      simp [LogItem.isFulfilled] at this
  case Sell =>
    rw [execute_order_sell_book, if_neg (fun hcon => by cases hcon.2)]
    rw [execute_order_sell_log] at hmem ⊢
    by_cases hc : (match_order OrderSide.Buy b.bid ⟨opl, osz, ou⟩
        OrderKind.FillOrKill).cancelled = true
    · have hcond := (match_order_cancelled_iff OrderSide.Buy b.bid
        ⟨opl, osz, ou⟩ OrderKind.FillOrKill).mp hc
      have hwalk := matchWalk_active_size OrderSide.Buy ⟨opl, osz, ou⟩ 0 0 b.bid
      rw [match_order_spec_cancel OrderSide.Buy b.bid ⟨opl, osz, ou⟩
        OrderKind.FillOrKill hcond]
      have hosz : 0 < osz := by
        have h2 := hcond.2
        dsimp only at hwalk
        omega
      refine ⟨?_, rfl⟩
      simp [hosz]
    · have hcf : (match_order OrderSide.Buy b.bid ⟨opl, osz, ou⟩
          OrderKind.FillOrKill).cancelled = false := by simpa using hc
      exfalso
      have hiff := match_order_cancelled_iff OrderSide.Buy b.bid
        ⟨opl, osz, ou⟩ OrderKind.FillOrKill
      have hcond2 : ¬ (OrderKind.FillOrKill = OrderKind.FillOrKill ∧
          (matchWalk OrderSide.Buy ⟨opl, osz, ou⟩ 0 0 b.bid).active.size ≠ 0) := by
        rw [← hiff, hcf]
        simp
      have hzero : (match_order OrderSide.Buy b.bid ⟨opl, osz, ou⟩
          OrderKind.FillOrKill).active.size = 0 := by
        rw [match_order_spec_commit OrderSide.Buy b.bid ⟨opl, osz, ou⟩
          OrderKind.FillOrKill hcond2]
        dsimp only
        by_contra hne
        exact hcond2 ⟨rfl, hne⟩
      simp only [hcf, hzero, Bool.false_eq_true, if_false, Nat.lt_irrefl,
        List.append_nil] at hmem
      have := match_order_log_fulfilled OrderSide.Buy b.bid ⟨opl, osz, ou⟩
        OrderKind.FillOrKill _ hmem
      simp [LogItem.isFulfilled] at this

/-- Witness for C8: the same failed FoK as in the C1 witness emits
exactly one `Cancelled` item of the original size 5. -/
theorem spec_c8_fok_cancelled_item_witness :
    (LogItem.Cancelled 5 ∈ (execute_order ⟨[⟨100, 1, 1⟩], []⟩
        ⟨90, 5, 0, OrderKind.FillOrKill, OrderSide.Sell⟩).2) ∧
    (execute_order ⟨[⟨100, 1, 1⟩], []⟩
        ⟨90, 5, 0, OrderKind.FillOrKill, OrderSide.Sell⟩).2 =
      [LogItem.Cancelled
        (IncomingOrder.size ⟨90, 5, 0, OrderKind.FillOrKill, OrderSide.Sell⟩)] ∧
    (execute_order ⟨[⟨100, 1, 1⟩], []⟩
        ⟨90, 5, 0, OrderKind.FillOrKill, OrderSide.Sell⟩).1 =
      ⟨[⟨100, 1, 1⟩], []⟩ :=
  ⟨by decide, spec_c8_fok_cancelled_item ⟨[⟨100, 1, 1⟩], []⟩
    ⟨90, 5, 0, OrderKind.FillOrKill, OrderSide.Sell⟩ 5 rfl (by decide)⟩

lemma enqueued_not_mem_walk_part (s : OrderSide) (q : List Order) (a : Order)
    (k : OrderKind) (sz : Nat) :
    LogItem.Enqueued sz ∉
      (if (match_order s q a k).cancelled = true then []
        else (match_order s q a k).log) := by
  by_cases hc : (match_order s q a k).cancelled = true
  · simp [hc]
  · rw [if_neg hc]
    intro hmem
    have := match_order_log_fulfilled s q a k _ hmem
    simp [LogItem.isFulfilled] at this

/-- C10 (frame property): the incoming order's same-side queue changes
exactly when an `Enqueued` item is emitted — that is, for a Limit order
with positive residual — and the change is exactly one insertion of the
residual resting order; in every other case (IoC, FoK, fully filled
Limit) the same-side queue is untouched. -/
theorem spec_c10_same_side_frame (b : OrderBook) (o : IncomingOrder) :
    ((∀ s, LogItem.Enqueued s ∉ (execute_order b o).2) →
      sameSideQueue (execute_order b o).1 o.side = sameSideQueue b o.side) ∧
    (∀ s, LogItem.Enqueued s ∈ (execute_order b o).2 →
      o.kind = OrderKind.Limit ∧
      sameSideQueue (execute_order b o).1 o.side =
        insertOrder o.side (sameSideQueue b o.side)
          ⟨o.price_limit, s, o.user_id⟩) := by
  obtain ⟨opl, osz, ou, ok, oside⟩ := o
  cases oside
  case Buy =>
    rw [execute_order_buy_book, execute_order_buy_log]
    by_cases hl : 0 < (match_order OrderSide.Sell b.ask ⟨opl, osz, ou⟩
        ok).active.size ∧ ok = OrderKind.Limit
    · rw [if_pos hl, if_pos hl.1, if_pos hl.2]
      constructor
      · intro hno
        exact absurd (List.mem_append_right _ (List.mem_singleton_self _))
          (hno (match_order OrderSide.Sell b.ask ⟨opl, osz, ou⟩ ok).active.size)
      · intro s hs
        rcases List.mem_append.mp hs with hs | hs
        · exact absurd hs (enqueued_not_mem_walk_part _ _ _ _ _)
        · have hs' : s = (match_order OrderSide.Sell b.ask ⟨opl, osz, ou⟩
              ok).active.size := by
            simpa using List.mem_singleton.mp hs
          refine ⟨hl.2, ?_⟩
          show insertOrder OrderSide.Buy b.bid
              (match_order OrderSide.Sell b.ask ⟨opl, osz, ou⟩ ok).active =
            insertOrder OrderSide.Buy b.bid ⟨opl, s, ou⟩
          obtain ⟨hf1, hf2⟩ :=
            match_order_active_fields OrderSide.Sell b.ask ⟨opl, osz, ou⟩ ok
          congr 1
          ext
          · exact hf1
          · exact hs'.symm
          · exact hf2
    · rw [if_neg hl]
      constructor
      · intro _
        rfl
      · intro s hs
        exfalso
        rcases List.mem_append.mp hs with hs | hs
        · exact absurd hs (enqueued_not_mem_walk_part _ _ _ _ _)
        · by_cases hz : 0 < (match_order OrderSide.Sell b.ask ⟨opl, osz, ou⟩
              ok).active.size
          · rw [if_pos hz, if_neg (fun hK => hl ⟨hz, hK⟩)] at hs
            simp at hs
          · rw [if_neg hz] at hs
            simp at hs
  case Sell =>
    rw [execute_order_sell_book, execute_order_sell_log]
    by_cases hl : 0 < (match_order OrderSide.Buy b.bid ⟨opl, osz, ou⟩
        ok).active.size ∧ ok = OrderKind.Limit
    · rw [if_pos hl, if_pos hl.1, if_pos hl.2]
      constructor
      · intro hno
        exact absurd (List.mem_append_right _ (List.mem_singleton_self _))
          (hno (match_order OrderSide.Buy b.bid ⟨opl, osz, ou⟩ ok).active.size)
      · intro s hs
        rcases List.mem_append.mp hs with hs | hs
        · exact absurd hs (enqueued_not_mem_walk_part _ _ _ _ _)
        · have hs' : s = (match_order OrderSide.Buy b.bid ⟨opl, osz, ou⟩
              ok).active.size := by
            simpa using List.mem_singleton.mp hs
          refine ⟨hl.2, ?_⟩
          show insertOrder OrderSide.Sell b.ask
              (match_order OrderSide.Buy b.bid ⟨opl, osz, ou⟩ ok).active =
            insertOrder OrderSide.Sell b.ask ⟨opl, s, ou⟩
          obtain ⟨hf1, hf2⟩ :=
            match_order_active_fields OrderSide.Buy b.bid ⟨opl, osz, ou⟩ ok
          congr 1
          ext
          · exact hf1
          · exact hs'.symm
          · exact hf2
    · rw [if_neg hl]
      constructor
      · intro _
        rfl
      · intro s hs
        exfalso
        rcases List.mem_append.mp hs with hs | hs
        · exact absurd hs (enqueued_not_mem_walk_part _ _ _ _ _)
        · by_cases hz : 0 < (match_order OrderSide.Buy b.bid ⟨opl, osz, ou⟩
              ok).active.size
          · rw [if_pos hz, if_neg (fun hK => hl ⟨hz, hK⟩)] at hs
            simp at hs
          · rw [if_neg hz] at hs
            simp at hs

/-- Witness for C10: a Limit buy resting in an empty book is the single
insertion into the bid queue; discharging the membership hypothesis at
log item `Enqueued 5`. -/
theorem spec_c10_same_side_frame_witness :
    (LogItem.Enqueued 5 ∈ (execute_order ⟨[], []⟩
      ⟨100, 5, 7, OrderKind.Limit, OrderSide.Buy⟩).2) ∧
    ((⟨100, 5, 7, OrderKind.Limit, OrderSide.Buy⟩ : IncomingOrder).kind =
        OrderKind.Limit ∧
      sameSideQueue (execute_order ⟨[], []⟩
          ⟨100, 5, 7, OrderKind.Limit, OrderSide.Buy⟩).1
        (⟨100, 5, 7, OrderKind.Limit, OrderSide.Buy⟩ : IncomingOrder).side =
        insertOrder
          (⟨100, 5, 7, OrderKind.Limit, OrderSide.Buy⟩ : IncomingOrder).side
          (sameSideQueue ⟨[], []⟩
            (⟨100, 5, 7, OrderKind.Limit, OrderSide.Buy⟩ : IncomingOrder).side)
          ⟨100, 5, 7⟩) :=
  ⟨by decide,
    (spec_c10_same_side_frame ⟨[], []⟩
      ⟨100, 5, 7, OrderKind.Limit, OrderSide.Buy⟩).2 5 (by decide)⟩

/-- Conservation core for one committed `match_order` call, stated over
the full per-call log shape of `execute_order`. -/
lemma conservation_core (s : OrderSide) (q : List Order) (a : Order)
    (k : OrderKind) (hcf : (match_order s q a k).cancelled = false) :
    sizeSum q = sizeSum (match_order s q a k).queue +
      fulfilledTotal
        ((if (match_order s q a k).cancelled = true then []
            else (match_order s q a k).log) ++
          (if 0 < (match_order s q a k).active.size then
            (if k = OrderKind.Limit then
              [LogItem.Enqueued (match_order s q a k).active.size]
             else [LogItem.Cancelled (match_order s q a k).active.size])
           else [])) ∧
    fulfilledTotal
        ((if (match_order s q a k).cancelled = true then []
            else (match_order s q a k).log) ++
          (if 0 < (match_order s q a k).active.size then
            (if k = OrderKind.Limit then
              [LogItem.Enqueued (match_order s q a k).active.size]
             else [LogItem.Cancelled (match_order s q a k).active.size])
           else [])) +
      leftoverTotal
        ((if (match_order s q a k).cancelled = true then []
            else (match_order s q a k).log) ++
          (if 0 < (match_order s q a k).active.size then
            (if k = OrderKind.Limit then
              [LogItem.Enqueued (match_order s q a k).active.size]
             else [LogItem.Cancelled (match_order s q a k).active.size])
           else [])) = a.size := by
  rw [if_neg (by simp [hcf])]
  have hftB : fulfilledTotal
      (if 0 < (match_order s q a k).active.size then
        (if k = OrderKind.Limit then
          [LogItem.Enqueued (match_order s q a k).active.size]
         else [LogItem.Cancelled (match_order s q a k).active.size])
       else []) = 0 := by
    by_cases hz : 0 < (match_order s q a k).active.size
    · rw [if_pos hz]
      by_cases hk2 : k = OrderKind.Limit
      · rw [if_pos hk2]
        simp [fulfilledTotal]
      · rw [if_neg hk2]
        simp [fulfilledTotal]
    · rw [if_neg hz]
      rfl
  have hloB : leftoverTotal
      (if 0 < (match_order s q a k).active.size then
        (if k = OrderKind.Limit then
          [LogItem.Enqueued (match_order s q a k).active.size]
         else [LogItem.Cancelled (match_order s q a k).active.size])
       else []) = (match_order s q a k).active.size := by
    by_cases hz : 0 < (match_order s q a k).active.size
    · rw [if_pos hz]
      by_cases hk2 : k = OrderKind.Limit
      · rw [if_pos hk2]
        simp [leftoverTotal]
      · rw [if_neg hk2]
        simp [leftoverTotal]
    · rw [if_neg hz]
      simp [leftoverTotal]
      omega
  constructor
  · rw [fulfilledTotal_append, hftB, Nat.add_zero]
    exact match_order_commit_sum s q a k hcf
  · rw [fulfilledTotal_append, hftB, Nat.add_zero, leftoverTotal_append, hloB,
      leftoverTotal_of_all_fulfilled _ (match_order_log_fulfilled s q a k),
      Nat.zero_add]
    have := match_order_active_size s q a k hcf
    omega

/-- C5 (conservation): for every call that is not a failed FoK, the
total of `Fulfilled` sizes equals the reduction of the opposing queue's
total resting size, and together with the leftover (`Enqueued` or
`Cancelled`) size it accounts for the aggressor's full submitted size:
matched units are equal counted from both sides. -/
theorem spec_c5_conservation (b : OrderBook) (o : IncomingOrder)
    (h : o.kind = OrderKind.FillOrKill →
      ∀ it ∈ (execute_order b o).2, it.isCancelled = false) :
    sizeSum (opposingQueue b o.side) =
      sizeSum (opposingQueue (execute_order b o).1 o.side) +
        fulfilledTotal (execute_order b o).2 ∧
    fulfilledTotal (execute_order b o).2 +
      leftoverTotal (execute_order b o).2 = o.size := by
  obtain ⟨opl, osz, ou, ok, oside⟩ := o
  cases oside
  case Buy =>
    have hcf : (match_order OrderSide.Sell b.ask ⟨opl, osz, ou⟩
        ok).cancelled = false := by
      by_contra hcany
      have hc : (match_order OrderSide.Sell b.ask ⟨opl, osz, ou⟩
          ok).cancelled = true := by simpa using hcany
      have hcond := (match_order_cancelled_iff OrderSide.Sell b.ask
        ⟨opl, osz, ou⟩ ok).mp hc
      have hwalk := matchWalk_active_size OrderSide.Sell ⟨opl, osz, ou⟩ 0 0 b.ask
      have hosz : 0 < osz := by
        have h2 := hcond.2
        dsimp only at hwalk
        omega
      have hmem : LogItem.Cancelled osz ∈
          (execute_order b ⟨opl, osz, ou, ok, OrderSide.Buy⟩).2 := by
        rw [execute_order_buy_log, hcond.1,
          match_order_spec_cancel OrderSide.Sell b.ask ⟨opl, osz, ou⟩
            OrderKind.FillOrKill (hcond.1 ▸ hcond)]
        simp [hosz]
      have := h hcond.1 _ hmem
      simp [LogItem.isCancelled] at this
    rw [execute_order_buy_book, execute_order_buy_log]
    dsimp only [opposingQueue]
    have hask : (if 0 < (match_order OrderSide.Sell b.ask ⟨opl, osz, ou⟩
          ok).active.size ∧ ok = OrderKind.Limit then
        (⟨insertOrder OrderSide.Buy b.bid
            (match_order OrderSide.Sell b.ask ⟨opl, osz, ou⟩ ok).active,
          (match_order OrderSide.Sell b.ask ⟨opl, osz, ou⟩ ok).queue⟩ :
            OrderBook)
      else ⟨b.bid, (match_order OrderSide.Sell b.ask ⟨opl, osz, ou⟩
          ok).queue⟩).ask =
      (match_order OrderSide.Sell b.ask ⟨opl, osz, ou⟩ ok).queue := by
      split <;> rfl
    rw [hask]
    exact conservation_core OrderSide.Sell b.ask ⟨opl, osz, ou⟩ ok hcf
  case Sell =>
    have hcf : (match_order OrderSide.Buy b.bid ⟨opl, osz, ou⟩
        ok).cancelled = false := by
      by_contra hcany
      have hc : (match_order OrderSide.Buy b.bid ⟨opl, osz, ou⟩
          ok).cancelled = true := by simpa using hcany
      have hcond := (match_order_cancelled_iff OrderSide.Buy b.bid
        ⟨opl, osz, ou⟩ ok).mp hc
      have hwalk := matchWalk_active_size OrderSide.Buy ⟨opl, osz, ou⟩ 0 0 b.bid
      have hosz : 0 < osz := by
        have h2 := hcond.2
        dsimp only at hwalk
        omega
      have hmem : LogItem.Cancelled osz ∈
          (execute_order b ⟨opl, osz, ou, ok, OrderSide.Sell⟩).2 := by
        rw [execute_order_sell_log, hcond.1,
          match_order_spec_cancel OrderSide.Buy b.bid ⟨opl, osz, ou⟩
            OrderKind.FillOrKill (hcond.1 ▸ hcond)]
        simp [hosz]
      have := h hcond.1 _ hmem
      simp [LogItem.isCancelled] at this
    rw [execute_order_sell_book, execute_order_sell_log]
    dsimp only [opposingQueue]
    have hbid : (if 0 < (match_order OrderSide.Buy b.bid ⟨opl, osz, ou⟩
          ok).active.size ∧ ok = OrderKind.Limit then
        (⟨(match_order OrderSide.Buy b.bid ⟨opl, osz, ou⟩ ok).queue,
          insertOrder OrderSide.Sell b.ask
            (match_order OrderSide.Buy b.bid ⟨opl, osz, ou⟩ ok).active⟩ :
            OrderBook)
      else ⟨(match_order OrderSide.Buy b.bid ⟨opl, osz, ou⟩ ok).queue,
          b.ask⟩).bid =
      (match_order OrderSide.Buy b.bid ⟨opl, osz, ou⟩ ok).queue := by
      split <;> rfl
    rw [hbid]
    exact conservation_core OrderSide.Buy b.bid ⟨opl, osz, ou⟩ ok hcf

/-- Witness for C5: the IoC partial-fill scenario from the repository's
own test (`IoC S $101 #5 u0` against five resting bids). -/
theorem spec_c5_conservation_witness :
    ((⟨101, 5, 0, OrderKind.ImmediateOrCancel, OrderSide.Sell⟩ :
        IncomingOrder).kind = OrderKind.FillOrKill →
      ∀ it ∈ (execute_order
          ⟨[⟨103, 1, 1⟩, ⟨102, 1, 2⟩, ⟨102, 1, 3⟩, ⟨101, 1, 4⟩, ⟨100, 1, 5⟩],
            []⟩
          ⟨101, 5, 0, OrderKind.ImmediateOrCancel, OrderSide.Sell⟩).2,
        it.isCancelled = false) ∧
    (sizeSum (opposingQueue
        ⟨[⟨103, 1, 1⟩, ⟨102, 1, 2⟩, ⟨102, 1, 3⟩, ⟨101, 1, 4⟩, ⟨100, 1, 5⟩],
          []⟩ OrderSide.Sell) =
      sizeSum (opposingQueue (execute_order
          ⟨[⟨103, 1, 1⟩, ⟨102, 1, 2⟩, ⟨102, 1, 3⟩, ⟨101, 1, 4⟩, ⟨100, 1, 5⟩],
            []⟩
          ⟨101, 5, 0, OrderKind.ImmediateOrCancel, OrderSide.Sell⟩).1
          OrderSide.Sell) +
        fulfilledTotal (execute_order
          ⟨[⟨103, 1, 1⟩, ⟨102, 1, 2⟩, ⟨102, 1, 3⟩, ⟨101, 1, 4⟩, ⟨100, 1, 5⟩],
            []⟩
          ⟨101, 5, 0, OrderKind.ImmediateOrCancel, OrderSide.Sell⟩).2 ∧
    fulfilledTotal (execute_order
        ⟨[⟨103, 1, 1⟩, ⟨102, 1, 2⟩, ⟨102, 1, 3⟩, ⟨101, 1, 4⟩, ⟨100, 1, 5⟩],
          []⟩
        ⟨101, 5, 0, OrderKind.ImmediateOrCancel, OrderSide.Sell⟩).2 +
      leftoverTotal (execute_order
        ⟨[⟨103, 1, 1⟩, ⟨102, 1, 2⟩, ⟨102, 1, 3⟩, ⟨101, 1, 4⟩, ⟨100, 1, 5⟩],
          []⟩
        ⟨101, 5, 0, OrderKind.ImmediateOrCancel, OrderSide.Sell⟩).2 =
      (⟨101, 5, 0, OrderKind.ImmediateOrCancel, OrderSide.Sell⟩ :
        IncomingOrder).size) :=
  ⟨(fun hk => nomatch hk), spec_c5_conservation
    ⟨[⟨103, 1, 1⟩, ⟨102, 1, 2⟩, ⟨102, 1, 3⟩, ⟨101, 1, 4⟩, ⟨100, 1, 5⟩], []⟩
    ⟨101, 5, 0, OrderKind.ImmediateOrCancel, OrderSide.Sell⟩
    (fun hk => nomatch hk)⟩

/-! Round-trip (C3) machinery. -/

lemma match_order_nil_limit (s : OrderSide) (a : Order) :
    match_order s [] a OrderKind.Limit = ⟨[], a, [], false⟩ := rfl

lemma insertAtPos_append_of_none (o : Order) (pred : Order → Bool)
    (l : List Order) (h : ∀ p ∈ l, ¬ pred p = true) :
    insertAtPos o pred l = l ++ [o] := by
  induction l with
  | nil => rfl
  | cons p rest ih =>
    rw [insertAtPos, if_neg (h p (List.mem_cons_self p rest)),
      ih fun x hx => h x (List.mem_cons_of_mem p hx)]
    rfl

/-- Replaying the bid queue worst-price-first (the `to_vec` order) into
a book with an empty ask side rebuilds the bid queue by front
insertions, provided prices are pairwise distinct. -/
lemma replay_bids (L acc : List Order)
    (hstrict : L.Pairwise (fun x y => y.price_limit < x.price_limit))
    (hacc : ∀ x ∈ L, ∀ y ∈ acc, y.price_limit < x.price_limit)
    (hpos : ∀ x ∈ L, 0 < x.size) :
    (L.reverse.map (Order.to_incoming OrderSide.Buy)).foldl
      (fun b o => (execute_order b o).1) ⟨acc, []⟩ = ⟨L ++ acc, []⟩ := by
  rw [List.map_reverse, List.foldl_reverse, List.foldr_map]
  induction L with
  | nil => rfl
  | cons x L' ih =>
    obtain ⟨hhead, htail⟩ := List.pairwise_cons.mp hstrict
    rw [List.foldr_cons,
      ih htail (fun z hz y hy => hacc z (List.mem_cons_of_mem x hz) y hy)
        (fun z hz => hpos z (List.mem_cons_of_mem x hz))]
    have hfront : ∀ p ∈ L' ++ acc, p.price_limit < x.price_limit := by
      intro p hp
      rcases List.mem_append.mp hp with hp | hp
      · exact hhead p hp
      · exact hacc x (List.mem_cons_self x L') p hp
    show (execute_order ⟨L' ++ acc, []⟩
      ⟨x.price_limit, x.size, x.user_id, OrderKind.Limit, OrderSide.Buy⟩).1 =
      ⟨x :: L' ++ acc, []⟩
    rw [execute_order_buy_book]
    have hM : match_order OrderSide.Sell
        (OrderBook.ask ⟨L' ++ acc, []⟩) ⟨x.price_limit, x.size, x.user_id⟩
        OrderKind.Limit = ⟨[], ⟨x.price_limit, x.size, x.user_id⟩, [], false⟩ :=
      match_order_nil_limit OrderSide.Sell _
    rw [hM, if_pos ⟨hpos x (List.mem_cons_self x L'), rfl⟩]
    have hins : insertOrder OrderSide.Buy (OrderBook.bid ⟨L' ++ acc, []⟩)
        ((⟨[], ⟨x.price_limit, x.size, x.user_id⟩, [], false⟩ :
          MatchResult).active) = x :: (L' ++ acc) := by
      show insertOrder OrderSide.Buy (L' ++ acc)
        ⟨x.price_limit, x.size, x.user_id⟩ = x :: (L' ++ acc)
      cases hL : L' ++ acc with
      | nil => rfl
      | cons p rest =>
        have hp : p.price_limit < x.price_limit :=
          hfront p (by rw [hL]; exact List.mem_cons_self p rest)
        rw [insertOrder_eq, insertAtPos,
          if_pos (by simpa [worsePred] using hp)]
    rw [hins]
    rfl

/-- Replaying the ask queue best-price-first (the `to_vec` order) into
a book whose bid queue crosses it only at same-user pairs leaves the
bid queue untouched and appends each ask at the tail. -/
lemma replay_asks (A : List Order) (B : List Order) :
    ∀ accAsk : List Order,
      A.Pairwise (fun x y => x.price_limit ≤ y.price_limit) →
      (∀ x ∈ A, 0 < x.size) →
      (∀ x ∈ A, ∀ y ∈ accAsk, y.price_limit ≤ x.price_limit) →
      (∀ x ∈ A, ∀ bo ∈ B, x.price_limit ≤ bo.price_limit →
        bo.user_id = x.user_id) →
      (A.map (Order.to_incoming OrderSide.Sell)).foldl
        (fun b o => (execute_order b o).1) ⟨B, accAsk⟩ = ⟨B, accAsk ++ A⟩ := by
  induction A with
  | nil =>
    intro accAsk _ _ _ _
    simp
  | cons x A' ih =>
    intro accAsk hsort hpos hacc hcross
    obtain ⟨hhead, htail⟩ := List.pairwise_cons.mp hsort
    rw [List.map_cons, List.foldl_cons]
    have hstep : (execute_order ⟨B, accAsk⟩
        ⟨x.price_limit, x.size, x.user_id, OrderKind.Limit,
          OrderSide.Sell⟩).1 = ⟨B, accAsk ++ [x]⟩ := by
      rw [execute_order_sell_book]
      have hall : ∀ p ∈ B,
          price_matches OrderSide.Buy p ⟨x.price_limit, x.size, x.user_id⟩ =
            true → p.user_id =
              (⟨x.price_limit, x.size, x.user_id⟩ : Order).user_id := by
        intro p hp hpm
        exact hcross x (List.mem_cons_self x A') p hp (by
          simpa [price_matches] using hpm)
      have hwalk := matchWalk_all_skip OrderSide.Buy
        ⟨x.price_limit, x.size, x.user_id⟩ 0 0 B hall
      have hcond : ¬ (OrderKind.Limit = OrderKind.FillOrKill ∧
          (matchWalk OrderSide.Buy ⟨x.price_limit, x.size, x.user_id⟩ 0 0
            B).active.size ≠ 0) := fun hcc => by cases hcc.1
      have hcf : (match_order OrderSide.Buy B
          ⟨x.price_limit, x.size, x.user_id⟩ OrderKind.Limit).cancelled =
            false := by
        rw [match_order_spec_commit OrderSide.Buy B _ _ hcond]
      have hlog : (match_order OrderSide.Buy B
          ⟨x.price_limit, x.size, x.user_id⟩ OrderKind.Limit).log = [] := by
        rw [match_order_spec_commit OrderSide.Buy B _ _ hcond]
        exact hwalk.1
      obtain ⟨hq, hact⟩ := match_order_log_nil OrderSide.Buy B
        ⟨x.price_limit, x.size, x.user_id⟩ OrderKind.Limit hcf hlog
      rw [if_pos ⟨by rw [hact]; exact hpos x (List.mem_cons_self x A'), rfl⟩,
        hq, hact]
      have hins : insertOrder OrderSide.Sell (OrderBook.ask ⟨B, accAsk⟩)
          ⟨x.price_limit, x.size, x.user_id⟩ = accAsk ++ [x] := by
        show insertOrder OrderSide.Sell accAsk
          ⟨x.price_limit, x.size, x.user_id⟩ = accAsk ++ [x]
        rw [insertOrder_eq, insertAtPos_append_of_none]
        intro p hp
        have := hacc x (List.mem_cons_self x A') p hp
        simp [worsePred]
        omega
      rw [hins]
    rw [show Order.to_incoming OrderSide.Sell x =
      ⟨x.price_limit, x.size, x.user_id, OrderKind.Limit, OrderSide.Sell⟩
      from rfl, hstep]
    have hrec := ih (accAsk ++ [x]) htail
      (fun z hz => hpos z (List.mem_cons_of_mem x hz))
      (fun z hz y hy => by
        rcases List.mem_append.mp hy with hy | hy
        · exact hacc z (List.mem_cons_of_mem x hz) y hy
        · rw [List.mem_singleton.mp hy]
          exact hhead z hz)
      (fun z hz bo hbo hle =>
        hcross z (List.mem_cons_of_mem x hz) bo hbo hle)
    rw [hrec]
    simp

/-- Orders of the C3 counterexample: two equal-priced resting bids. -/
def c3cexOrders : List IncomingOrder :=
  [⟨100, 1, 1, OrderKind.Limit, OrderSide.Buy⟩,
   ⟨100, 1, 2, OrderKind.Limit, OrderSide.Buy⟩]

/-- C3: the round-trip claim is FALSE as stated: serializing the
reachable book holding two equal-priced bids (`u1` ahead of `u2`) with
`to_vec` and replaying with `from_vec` swaps the two bids — `to_vec`
emits bids worst-first and re-insertion places price ties after their
equals, reversing each equal-price run. -/
theorem spec_c3_round_trip_counterexample :
    OrderBook.from_vec (OrderBook.to_vec (OrderBook.from_vec c3cexOrders)) ≠
      OrderBook.from_vec c3cexOrders := by decide

/-- C3 (amended): for every book reachable from the empty book whose
bid queue holds no two orders of equal price, replaying `to_vec`
through `from_vec` rebuilds the book exactly, queue for queue and
position for position. -/
theorem spec_c3_round_trip_amended (os : List IncomingOrder)
    (hd : (OrderBook.from_vec os).bid.Pairwise
      (fun x y => x.price_limit ≠ y.price_limit)) :
    OrderBook.from_vec (OrderBook.to_vec (OrderBook.from_vec os)) =
      OrderBook.from_vec os := by
  have hinv := from_vec_inv os
  set b := OrderBook.from_vec os with hb
  obtain ⟨hsb, hsa, hpb, hpa, hcr⟩ := hinv
  show (OrderBook.to_vec b).foldl (fun bb o => (execute_order bb o).1)
      OrderBook.new = b
  rw [OrderBook.to_vec, List.foldl_append]
  have hstrict : b.bid.Pairwise
      (fun x y => y.price_limit < x.price_limit) := by
    refine (List.Pairwise.and hsb hd).imp ?_
    intro x y hxy
    have h1 := hxy.1
    have h2 := hxy.2
    simp [priceOrd] at h1
    omega
  have h1 : (b.bid.reverse.map (Order.to_incoming OrderSide.Buy)).foldl
      (fun bb o => (execute_order bb o).1) ⟨[], []⟩ = ⟨b.bid ++ [], []⟩ :=
    replay_bids b.bid [] hstrict (by intro x hx y hy; simp at hy) hpb
  rw [show OrderBook.new = (⟨[], []⟩ : OrderBook) from rfl, h1,
    List.append_nil]
  have hsa' : b.ask.Pairwise (fun x y => x.price_limit ≤ y.price_limit) := by
    refine hsa.imp ?_
    intro x y h
    simpa [priceOrd] using h
  have h2 := replay_asks b.ask b.bid [] hsa' hpa
    (by intro x hx y hy; simp at hy)
    (fun x hx bo hbo hle => hcr bo hbo x hx hle)
  rw [h2, List.nil_append]

/-- Witness for the amended C3 on a book with distinct bid prices. -/
theorem spec_c3_round_trip_amended_witness :
    ((OrderBook.from_vec
        [⟨100, 1, 1, OrderKind.Limit, OrderSide.Buy⟩,
         ⟨90, 2, 2, OrderKind.Limit, OrderSide.Buy⟩,
         ⟨110, 1, 3, OrderKind.Limit, OrderSide.Sell⟩]).bid.Pairwise
      (fun x y => x.price_limit ≠ y.price_limit)) ∧
    OrderBook.from_vec (OrderBook.to_vec (OrderBook.from_vec
        [⟨100, 1, 1, OrderKind.Limit, OrderSide.Buy⟩,
         ⟨90, 2, 2, OrderKind.Limit, OrderSide.Buy⟩,
         ⟨110, 1, 3, OrderKind.Limit, OrderSide.Sell⟩])) =
      OrderBook.from_vec
        [⟨100, 1, 1, OrderKind.Limit, OrderSide.Buy⟩,
         ⟨90, 2, 2, OrderKind.Limit, OrderSide.Buy⟩,
         ⟨110, 1, 3, OrderKind.Limit, OrderSide.Sell⟩] :=
  ⟨by decide, spec_c3_round_trip_amended
    [⟨100, 1, 1, OrderKind.Limit, OrderSide.Buy⟩,
     ⟨90, 2, 2, OrderKind.Limit, OrderSide.Buy⟩,
     ⟨110, 1, 3, OrderKind.Limit, OrderSide.Sell⟩] (by decide)⟩
